import Mathlib

/-!
Shallow embedding of the block-request scheduler ("wishlist") of
`src/libtransmission/peer-mgr-wishlist.cc`.

The scheduler state is the candidate list `candidates_` of `Wishlist::Impl`.
Every event handler of the source is translated to a pure function on that
list; the handlers that consult the mediator receive the relevant mediator
answers as explicit arguments (a `MediatorView` for the full rebuild, the
`client_has_block` reading for `got_bad_piece`, the outstanding-request
bitfield for choke/disconnect).  `requested_block_span` returns `Option`:
`none` marks the out-of-bounds dereference the source performs on an empty
`unrequested` set (`*std::prev(std::end(unreq))` with `unreq` empty).
-/

/-- Half-open span of block indices (`tr_block_span_t`).  Field `lo` is the
source's `begin`, `hi` its `end` (`end` is a reserved word in Lean). -/
structure BlockSpan where
  lo : Nat
  hi : Nat
deriving DecidableEq, Repr

/-- Membership of a block in a half-open span. -/
def BlockSpan.covers (s : BlockSpan) (b : Nat) : Prop :=
  s.lo ≤ b ∧ b < s.hi

instance (s : BlockSpan) (b : Nat) : Decidable (s.covers b) :=
  inferInstanceAs (Decidable (s.lo ≤ b ∧ b < s.hi))

/-- Two spans share no block. -/
def BlockSpan.disjoint (s t : BlockSpan) : Prop :=
  ∀ b : Nat, ¬(s.covers b ∧ t.covers b)

/-- One entry of `Wishlist::Impl::candidates_` (`struct Candidate`).
`unrequested` is kept sorted ascending without duplicates; the source's
`small::set` stores the same blocks descending and reads the k smallest
through `rbegin`, which yields them in ascending order. -/
structure Candidate where
  piece : Nat
  file_index : Nat
  block_span : BlockSpan
  raw_block_span : BlockSpan
  unrequested : List Nat
  priority : Int
deriving DecidableEq, Repr

/-- Source: `Candidate::block_belongs`. -/
def Candidate.block_belongs (c : Candidate) (b : Nat) : Prop :=
  c.block_span.lo ≤ b ∧ b < c.block_span.hi

instance (c : Candidate) (b : Nat) : Decidable (c.block_belongs b) :=
  inferInstanceAs (Decidable (c.block_span.lo ≤ b ∧ b < c.block_span.hi))

/-- Source: `Candidate::sort_key` — `(-priority, file_index, piece)`. -/
def Candidate.sort_key (c : Candidate) : Int × Nat × Nat :=
  (-c.priority, c.file_index, c.piece)

/-- Strict lexicographic order on sort keys (`operator<` on `std::tuple`). -/
def keyLt (a b : Int × Nat × Nat) : Prop :=
  a.1 < b.1 ∨ (a.1 = b.1 ∧ (a.2.1 < b.2.1 ∨ (a.2.1 = b.2.1 ∧ a.2.2 < b.2.2)))

instance : DecidableRel keyLt := fun a b =>
  inferInstanceAs (Decidable (a.1 < b.1 ∨
    (a.1 = b.1 ∧ (a.2.1 < b.2.1 ∨ (a.2.1 = b.2.1 ∧ a.2.2 < b.2.2)))))

/-- Reflexive closure of `keyLt`; `std::sort` with `operator<` arranges the
candidates into a sequence sorted under this relation. -/
def keyLe (a b : Int × Nat × Nat) : Prop := keyLt a b ∨ a = b

instance : DecidableRel keyLe := fun a b =>
  inferInstanceAs (Decidable (keyLt a b ∨ a = b))

/-- `operator<` lifted to candidates. -/
def candLt (a b : Candidate) : Prop := keyLt a.sort_key b.sort_key

instance : DecidableRel candLt := fun a b =>
  inferInstanceAs (Decidable (keyLt a.sort_key b.sort_key))

/-- Non-strict comparison used by the model's sort. -/
def candLe (a b : Candidate) : Prop := keyLe a.sort_key b.sort_key

instance : DecidableRel candLe := fun a b =>
  inferInstanceAs (Decidable (keyLe a.sort_key b.sort_key))

theorem keyLt_trans {a b c : Int × Nat × Nat} (h1 : keyLt a b) (h2 : keyLt b c) : keyLt a c := by
  unfold keyLt at *
  obtain ⟨a1, a2, a3⟩ := a
  obtain ⟨b1, b2, b3⟩ := b
  obtain ⟨c1, c2, c3⟩ := c
  simp only at *
  rcases h1 with h1 | ⟨e1, h1⟩ <;> rcases h2 with h2 | ⟨e2, h2⟩
  · exact Or.inl (h1.trans h2)
  · exact Or.inl (e2 ▸ h1)
  · exact Or.inl (e1 ▸ h2)
  · subst e1; subst e2
    refine Or.inr ⟨rfl, ?_⟩
    rcases h1 with h1 | ⟨f1, h1⟩ <;> rcases h2 with h2 | ⟨f2, h2⟩
    · exact Or.inl (h1.trans h2)
    · exact Or.inl (f2 ▸ h1)
    · exact Or.inl (f1 ▸ h2)
    · subst f1; subst f2; exact Or.inr ⟨rfl, h1.trans h2⟩

theorem keyLt_irrefl (a : Int × Nat × Nat) : ¬keyLt a a := by
  unfold keyLt; omega

theorem keyLt_asymm {a b : Int × Nat × Nat} (h : keyLt a b) : ¬keyLt b a := by
  intro h2
  exact keyLt_irrefl a (keyLt_trans h h2)

theorem keyLe_total (a b : Int × Nat × Nat) : keyLe a b ∨ keyLe b a := by
  unfold keyLe keyLt
  obtain ⟨a1, a2, a3⟩ := a
  obtain ⟨b1, b2, b3⟩ := b
  simp only [Prod.mk.injEq]
  rcases lt_trichotomy a1 b1 with h | h | h
  · exact Or.inl (Or.inl (Or.inl h))
  · rcases Nat.lt_trichotomy a2 b2 with h2 | h2 | h2
    · exact Or.inl (Or.inl (Or.inr ⟨h, Or.inl h2⟩))
    · rcases Nat.lt_trichotomy a3 b3 with h3 | h3 | h3
      · exact Or.inl (Or.inl (Or.inr ⟨h, Or.inr ⟨h2, h3⟩⟩))
      · exact Or.inl (Or.inr ⟨h, h2, h3⟩)
      · exact Or.inr (Or.inl (Or.inr ⟨h.symm, Or.inr ⟨h2.symm, h3⟩⟩))
    · exact Or.inr (Or.inl (Or.inr ⟨h.symm, Or.inl h2⟩))
  · exact Or.inr (Or.inl (Or.inl h))

theorem keyLe_trans {a b c : Int × Nat × Nat} (h1 : keyLe a b) (h2 : keyLe b c) : keyLe a c := by
  rcases h1 with h1 | rfl
  · rcases h2 with h2 | rfl
    · exact Or.inl (keyLt_trans h1 h2)
    · exact Or.inl h1
  · exact h2

theorem keyLe_of_ne_keyLt {a b : Int × Nat × Nat} (h : keyLe a b) (hne : a ≠ b) : keyLt a b := by
  rcases h with h | rfl
  · exact h
  · exact absurd rfl hne

instance : IsTotal Candidate candLe := ⟨fun a b => keyLe_total a.sort_key b.sort_key⟩

instance : IsTrans Candidate candLe := ⟨fun _ _ _ h1 h2 => keyLe_trans h1 h2⟩

instance : IsTrans Candidate candLt := ⟨fun _ _ _ h1 h2 => keyLt_trans h1 h2⟩

/-- Answers the mediator gives when the candidate list is rebuilt from
scratch (`Wishlist::Mediator` reads used by `candidate_list_upkeep` and
`Candidate::Candidate`). -/
structure MediatorView where
  piece_count : Nat
  client_wants_piece : Nat → Bool
  client_has_piece : Nat → Bool
  client_has_block : Nat → Bool
  file_index_for_piece : Nat → Nat
  block_span : Nat → BlockSpan
  priority : Nat → Int

/-- Source: the `Candidate` constructor.  The source inserts, walking the
span downward, every block the client does not own; ascending order, the
content is identical. -/
def Candidate.make (view : MediatorView) (piece_in : Nat) : Candidate :=
  let span := view.block_span piece_in
  { piece := piece_in
    file_index := view.file_index_for_piece piece_in
    block_span := span
    raw_block_span := span
    unrequested := (List.range' span.lo (span.hi - span.lo)).filter
      (fun b => !view.client_has_block b)
    priority := view.priority piece_in }

/-- Source: `sort_candidates` / the `std::sort` call of
`candidate_list_upkeep`.  Sort keys are distinct in every state the source
reaches (the key contains the piece number), so any comparison sort yields
the same list; the model uses insertion sort. -/
def sort_candidates (cands : List Candidate) : List Candidate :=
  List.insertionSort candLe cands

/-- One step of the overlap-resolution loop of `candidate_list_upkeep`:
blocks in `[curr.block_span.begin, prev.block_span.end)` are erased from
`curr.unrequested` and `curr.block_span.begin` is moved up to
`prev.block_span.end`. -/
def trimCand (prev_hi : Nat) (c : Candidate) : Candidate :=
  if c.block_span.lo < prev_hi then
    { c with
      unrequested := c.unrequested.filter (fun b => decide (b < c.block_span.lo ∨ prev_hi ≤ b))
      block_span := ⟨prev_hi, c.block_span.hi⟩ }
  else c

/-- Overlap-resolution walk of `candidate_list_upkeep` (the `for` loop over
consecutive pairs).  Trimming never changes a span's `end`, so passing the
trimmed candidate's `hi` onward matches the source reading
`prev.block_span.end`. -/
def trimFrom (prev_hi : Nat) : List Candidate → List Candidate
  | [] => []
  | c :: cs =>
    let c' := trimCand prev_hi c
    c' :: trimFrom c'.block_span.hi cs

/-- Source: the overlap-handling phase of `candidate_list_upkeep`. -/
def trimOverlaps : List Candidate → List Candidate
  | [] => []
  | c :: cs => c :: trimFrom c.block_span.hi cs

/-- Source: `Wishlist::Impl::candidate_list_upkeep` — full rebuild: collect
wanted-and-incomplete pieces, sort by the static key, then resolve block
span overlaps between consecutive candidates. -/
def candidate_list_upkeep (view : MediatorView) : List Candidate :=
  let new_candidates := ((List.range view.piece_count).filter
    (fun p => view.client_wants_piece p && !view.client_has_piece p)).map (Candidate.make view)
  trimOverlaps (sort_candidates new_candidates)

/-- Ordered insertion into the sorted ascending duplicate-free
`unrequested` list (`small::set::insert`). -/
def insertAsc (b : Nat) : List Nat → List Nat
  | [] => [b]
  | x :: xs =>
    if b < x then b :: x :: xs
    else if b = x then x :: xs
    else x :: insertAsc b xs

/-- Source: `Wishlist::Impl::reset_block` — re-insert one block into the
first candidate whose span contains it. -/
def reset_block (b : Nat) : List Candidate → List Candidate
  | [] => []
  | c :: cs =>
    if c.block_belongs b then { c with unrequested := insertAsc b c.unrequested } :: cs
    else c :: reset_block b cs

/-- Source: `Wishlist::Impl::client_got_block` — erase one block from the
first candidate whose span contains it. -/
def client_got_block (b : Nat) : List Candidate → List Candidate
  | [] => []
  | c :: cs =>
    if c.block_belongs b then
      { c with unrequested := c.unrequested.filter (fun x => decide (x ≠ b)) } :: cs
    else c :: client_got_block b cs

/-- Source: `Wishlist::Impl::reset_blocks_bitfield` — for every candidate
whose span intersects the supplied outstanding-request bitfield, re-insert
exactly the blocks the bitfield holds. -/
def reset_blocks_bitfield (requests : Nat → Bool) (cands : List Candidate) : List Candidate :=
  cands.map fun c =>
    let spanBlocks := List.range' c.block_span.lo (c.block_span.hi - c.block_span.lo)
    if spanBlocks.countP requests = 0 then c
    else { c with
      unrequested := spanBlocks.foldr (fun b u => if requests b then insertAsc b u else u)
        c.unrequested }

/-- Source: `Wishlist::Impl::got_bad_piece` — restore the raw block span and
refill `unrequested` with every block of it the client does not own (the
`client_has_block` reading is the mediator's answer at handler time). -/
def got_bad_piece (p : Nat) (client_has_block : Nat → Bool) : List Candidate → List Candidate
  | [] => []
  | c :: cs =>
    if c.piece = p then
      { c with
        block_span := c.raw_block_span
        unrequested := (List.range' c.raw_block_span.lo (c.raw_block_span.hi - c.raw_block_span.lo)).filter
          (fun b => !client_has_block b) } :: cs
    else c :: got_bad_piece p client_has_block cs

/-- Source: `Wishlist::Impl::remove_piece` — erase the candidate of a
completed piece, a no-op when the piece is untracked. -/
def remove_piece (p : Nat) (cands : List Candidate) : List Candidate :=
  cands.eraseP (fun c => decide (c.piece = p))

/-- Source: `Wishlist::Impl::recalculate_priority` — re-read every
candidate's priority, then re-sort. -/
def recalculate_priority (prio : Nat → Int) (cands : List Candidate) : List Candidate :=
  sort_candidates (cands.map fun c => { c with priority := prio c.piece })

/-- Replace the first candidate (in list order, as `find_by_block` searches)
whose span contains `b`, also returning the candidate that was found. -/
def updateFirstContaining (b : Nat) (f : Candidate → Candidate) :
    List Candidate → Option (List Candidate × Candidate)
  | [] => none
  | c :: cs =>
    if c.block_belongs b then some (f c :: cs, c)
    else
      match updateFirstContaining b f cs with
      | none => none
      | some (cs', c0) => some (c :: cs', c0)

theorem updateFirstContaining_found {b : Nat} {f : Candidate → Candidate} :
    ∀ {cs cs' : List Candidate} {c0 : Candidate},
      updateFirstContaining b f cs = some (cs', c0) → c0.block_belongs b := by
  intro cs
  induction cs with
  | nil => intro _ _ h; simp [updateFirstContaining] at h
  | cons c cs ih =>
    intro cs' c0 h
    by_cases hb : c.block_belongs b
    · simp [updateFirstContaining, hb] at h
      exact h.2 ▸ hb
    · simp only [updateFirstContaining, if_neg hb] at h
      cases h2 : updateFirstContaining b f cs with
      | none => rw [h2] at h; exact absurd h (by simp)
      | some r =>
        rw [h2] at h
        obtain ⟨cs'', c0'⟩ := r
        simp at h
        exact h.2 ▸ ih h2

/-- The erase performed by `requested_block_span` on one candidate's
`unrequested` set: the iterator arithmetic removes exactly the blocks lying
in `[span.begin, span.end)`.  Valid only when the set is non-empty — the
iterator reads are out of bounds otherwise, which the caller models. -/
def eraseSpanBlocks (s : BlockSpan) (u : List Nat) : List Nat :=
  u.filter (fun b => decide (b < s.lo ∨ s.hi ≤ b))

/-- Source: the loop body of `Wishlist::Impl::requested_block_span`.
`none` records the source dereferencing `std::prev(std::end(unreq))` and
`std::begin(unreq)` on an empty `unrequested` set (out-of-bounds reads). -/
def requested_block_span_from (s : BlockSpan) (block : Nat) (cands : List Candidate) :
    Option (List Candidate) :=
  if _h : block < s.hi then
    match h2 : updateFirstContaining block
        (fun c => { c with unrequested := eraseSpanBlocks s c.unrequested }) cands with
    | none => some cands
    | some (cands', c0) =>
      if c0.unrequested.isEmpty then none
      else requested_block_span_from s c0.block_span.hi cands'
  else some cands
termination_by s.hi - block
decreasing_by
  have hfound := updateFirstContaining_found h2
  have := hfound.2
  omega

/-- Source: `Wishlist::Impl::requested_block_span`. -/
def requested_block_span (s : BlockSpan) (cands : List Candidate) : Option (List Candidate) :=
  requested_block_span_from s s.lo cands

/-- Source: `make_spans` — coalesce a sorted block list into contiguous
half-open spans.  `spanify start cur rest` carries the begin of the current
run and the last block consumed, mirroring `span_begin`/`span_end`. -/
def spanify (start cur : Nat) : List Nat → List BlockSpan
  | [] => [⟨start, cur + 1⟩]
  | c :: cs =>
    if cur + 1 = c then spanify start c cs
    else ⟨start, cur + 1⟩ :: spanify c c cs

/-- Source: `make_spans` (anonymous namespace of `peer-mgr-wishlist.cc`). -/
def make_spans : List Nat → List BlockSpan
  | [] => []
  | b :: bs => spanify b b bs

/-- Source: the non-sequential collection loop of `Wishlist::Impl::next`.
`take (n_wanted - acc.length)` is `copy_n(rbegin, min(size, n_wanted - size))`:
the k smallest unrequested blocks in ascending order. -/
def collectPrio (peer_has_piece : Nat → Bool) (n_wanted : Nat) :
    List Candidate → List Nat → List Nat
  | [], acc => acc
  | c :: cs, acc =>
    if n_wanted ≤ acc.length then acc
    else if !peer_has_piece c.piece || c.unrequested.isEmpty then
      collectPrio peer_has_piece n_wanted cs acc
    else collectPrio peer_has_piece n_wanted cs (acc ++ c.unrequested.take (n_wanted - acc.length))

/-- Source: the sequential-mode collection loop of `Wishlist::Impl::next`.
`current` is the `(current_priority, current_file_index)` marker guarded by
`have_current_file`; when the candidate's pair differs and blocks were
already accumulated the walk stops, otherwise the marker moves to the
candidate's own pair (which is also what keeping an equal marker does). -/
def collectSeq (peer_has_piece : Nat → Bool) (n_wanted : Nat) :
    List Candidate → Option (Int × Nat) → List Nat → List Nat
  | [], _, acc => acc
  | c :: cs, current, acc =>
    if n_wanted ≤ acc.length then acc
    else
      let cur := current.getD (c.priority, c.file_index)
      if (c.priority, c.file_index) ≠ cur ∧ acc ≠ [] then acc
      else if !peer_has_piece c.piece || c.unrequested.isEmpty then
        collectSeq peer_has_piece n_wanted cs (some (c.priority, c.file_index)) acc
      else
        collectSeq peer_has_piece n_wanted cs (some (c.priority, c.file_index))
          (acc ++ c.unrequested.take (n_wanted - acc.length))

/-- Source: `Wishlist::Impl::next`.  The member function reads the candidate
list and the bitfields but writes no member state; the embedding makes that
explicit by returning the (unchanged) candidate list alongside the spans.
`is_sequential` is the mediator's `is_sequential_download()` answer. -/
def Wishlist.next (candidates : List Candidate) (is_sequential : Bool) (n_wanted_blocks : Nat)
    (peer_has_piece : Nat → Bool) : List BlockSpan × List Candidate :=
  if n_wanted_blocks = 0 ∨ candidates.isEmpty then ([], candidates)
  else
    let blocks :=
      if is_sequential then collectSeq peer_has_piece n_wanted_blocks candidates none []
      else collectPrio peer_has_piece n_wanted_blocks candidates []
    (make_spans (List.insertionSort (· ≤ ·) blocks), candidates)

/-- The ten mediator notifications `Wishlist::Impl` subscribes to, with the
mediator answers each handler consults attached as payload. -/
inductive WishEvent where
  | files_wanted_changed (view : MediatorView)
  | peer_disconnect (requests : Nat → Bool)
  | got_bad_piece (piece : Nat) (client_has_block : Nat → Bool)
  | got_block (block : Nat)
  | got_choke (requests : Nat → Bool)
  | got_reject (block : Nat)
  | piece_completed (piece : Nat)
  | priority_changed (priority : Nat → Int)
  | sent_cancel (block : Nat)
  | sent_request (span : BlockSpan)

/-- Dispatch of one mediator notification to its handler, as wired up in the
`Wishlist::Impl` constructor. -/
def step (cands : List Candidate) : WishEvent → Option (List Candidate)
  | .files_wanted_changed view => some (candidate_list_upkeep view)
  | .peer_disconnect requests => some (reset_blocks_bitfield requests cands)
  | .got_bad_piece p hb => some (got_bad_piece p hb cands)
  | .got_block b => some (client_got_block b cands)
  | .got_choke requests => some (reset_blocks_bitfield requests cands)
  | .got_reject b => some (reset_block b cands)
  | .piece_completed p => some (remove_piece p cands)
  | .priority_changed prio => some (recalculate_priority prio cands)
  | .sent_cancel b => some (reset_block b cands)
  | .sent_request s => requested_block_span s cands

/-- A sequence of mediator notifications applied in order. -/
def run (cands : List Candidate) : List WishEvent → Option (List Candidate)
  | [] => some cands
  | e :: es =>
    match step cands e with
    | none => none
    | some cands' => run cands' es

/-- A block is covered by some span of a result list. -/
def coveredBy (spans : List BlockSpan) (b : Nat) : Prop :=
  ∃ s ∈ spans, s.covers b

instance (spans : List BlockSpan) (b : Nat) : Decidable (coveredBy spans b) :=
  inferInstanceAs (Decidable (∃ s ∈ spans, s.covers b))

/-- Number of blocks a span list covers, counting each span's width. -/
def coveredCount (spans : List BlockSpan) : Nat :=
  (spans.map (fun s => s.hi - s.lo)).sum

/-- Well-formed output: every span non-degenerate, and consecutive spans
strictly separated (sorted, non-overlapping, non-adjacent). -/
def SpansWellFormed (spans : List BlockSpan) : Prop :=
  (∀ s ∈ spans, s.lo < s.hi) ∧ List.Chain' (fun s t => s.hi < t.lo) spans

instance (spans : List BlockSpan) : Decidable (SpansWellFormed spans) :=
  inferInstanceAs (Decidable ((∀ s ∈ spans, s.lo < s.hi) ∧
    List.Chain' (fun s t : BlockSpan => s.hi < t.lo) spans))

-- Sanity checks of the embedding on concrete data.
example : make_spans [0, 1, 2, 4, 5, 9] = [⟨0, 3⟩, ⟨4, 6⟩, ⟨9, 10⟩] := by decide

example : insertAsc 3 [1, 4] = [1, 3, 4] := by decide

/-- Two-file example torrent of the spec's scenarios: file A (High priority,
blocks 0..2, piece 0) sorts before file B (Normal, blocks 3..4, piece 1);
the client owns nothing. -/
def viewTwoFile : MediatorView :=
  { piece_count := 2
    client_wants_piece := fun _ => true
    client_has_piece := fun _ => false
    client_has_block := fun _ => false
    file_index_for_piece := fun p => p
    block_span := fun p => if p = 0 then ⟨0, 3⟩ else ⟨3, 5⟩
    priority := fun p => if p = 0 then 1 else 0 }

/-- Torrent whose piece size (36 KiB) is not a multiple of the block size
(16 KiB), so blocks straddle piece boundaries: the raw block spans are
`[0,3)`, `[2,5)` and `[4,7)` — block 2 is shared by pieces 0 and 1, block 4
by pieces 1 and 2.  One file per piece, in alphabetical order; the middle
file holds High priority, so the candidate order is piece 1, piece 0,
piece 2 and the overlapping pieces 1 and 2 are not consecutive in it. -/
def viewThreePiece : MediatorView :=
  { piece_count := 3
    client_wants_piece := fun _ => true
    client_has_piece := fun _ => false
    client_has_block := fun _ => false
    file_index_for_piece := fun p => p
    block_span := fun p => if p = 0 then ⟨0, 3⟩ else if p = 1 then ⟨2, 5⟩ else ⟨4, 7⟩
    priority := fun p => if p = 1 then 1 else 0 }

/-- Minimal torrent: one piece, one block, wanted and unowned. -/
def viewOneBlock : MediatorView :=
  { piece_count := 1
    client_wants_piece := fun _ => true
    client_has_piece := fun _ => false
    client_has_block := fun _ => false
    file_index_for_piece := fun _ => 0
    block_span := fun _ => ⟨0, 1⟩
    priority := fun _ => 0 }

example : candidate_list_upkeep viewTwoFile =
    [{ piece := 0, file_index := 0, block_span := ⟨0, 3⟩, raw_block_span := ⟨0, 3⟩,
       unrequested := [0, 1, 2], priority := 1 },
     { piece := 1, file_index := 1, block_span := ⟨3, 5⟩, raw_block_span := ⟨3, 5⟩,
       unrequested := [3, 4], priority := 0 }] := by decide

example : candidate_list_upkeep viewThreePiece =
    [{ piece := 1, file_index := 1, block_span := ⟨2, 5⟩, raw_block_span := ⟨2, 5⟩,
       unrequested := [2, 3, 4], priority := 1 },
     { piece := 0, file_index := 0, block_span := ⟨5, 3⟩, raw_block_span := ⟨0, 3⟩,
       unrequested := [], priority := 0 },
     { piece := 2, file_index := 2, block_span := ⟨4, 7⟩, raw_block_span := ⟨4, 7⟩,
       unrequested := [4, 5, 6], priority := 0 }] := by decide

example : (Wishlist.next (candidate_list_upkeep viewThreePiece) false 10 (fun _ => true)).1 =
    [⟨2, 5⟩, ⟨4, 7⟩] := by decide

example : (Wishlist.next (candidate_list_upkeep viewTwoFile) true 2 (fun _ => true)).1 =
    [⟨0, 2⟩] := by decide

-- ### Lemmas about `make_spans`

theorem spanify_head : ∀ (rest : List Nat) (start cur : Nat),
    ∃ hi tl, spanify start cur rest = ⟨start, hi⟩ :: tl := by
  intro rest
  induction rest with
  | nil => intro start cur; exact ⟨cur + 1, [], rfl⟩
  | cons c cs ih =>
    intro start cur
    by_cases h : cur + 1 = c
    · simpa [spanify, h] using ih start c
    · exact ⟨cur + 1, spanify c c cs, by simp [spanify, h]⟩

theorem spanify_covered {P : Nat → Prop} :
    ∀ (rest : List Nat) (start cur : Nat),
      (∀ x, start ≤ x → x ≤ cur → P x) → (∀ x ∈ rest, P x) →
      ∀ b, coveredBy (spanify start cur rest) b → P b := by
  intro rest
  induction rest with
  | nil =>
    intro start cur h1 _ b hb
    obtain ⟨s, hs, hcov⟩ := hb
    simp only [spanify, List.mem_singleton] at hs
    subst hs
    have hc1 : start ≤ b := hcov.1
    have hc2 : b < cur + 1 := hcov.2
    exact h1 b hc1 (by omega)
  | cons c cs ih =>
    intro start cur h1 h2 b hb
    by_cases h : cur + 1 = c
    · simp only [spanify, if_pos h] at hb
      refine ih start c ?_ (fun x hx => h2 x (List.mem_cons_of_mem _ hx)) b hb
      intro x hx1 hx2
      rcases Nat.lt_or_ge x c with hx | hx
      · exact h1 x hx1 (by omega)
      · have : x = c := by omega
        exact this ▸ h2 c (List.mem_cons_self c cs)
    · simp only [spanify, if_neg h] at hb
      obtain ⟨s, hs, hcov⟩ := hb
      rcases List.mem_cons.mp hs with rfl | hs'
      · have hc1 : start ≤ b := hcov.1
        have hc2 : b < cur + 1 := hcov.2
        exact h1 b hc1 (by omega)
      · refine ih c c ?_ (fun x hx => h2 x (List.mem_cons_of_mem _ hx)) b ⟨s, hs', hcov⟩
        intro x hx1 hx2
        have : x = c := by omega
        exact this ▸ h2 c (List.mem_cons_self c cs)

theorem make_spans_covered {l : List Nat} {b : Nat} (h : coveredBy (make_spans l) b) :
    b ∈ l := by
  cases l with
  | nil => obtain ⟨s, hs, _⟩ := h; simp [make_spans] at hs
  | cons x xs =>
    refine spanify_covered (P := fun y => y ∈ x :: xs) xs x x ?_ ?_ b h
    · intro y hy1 hy2
      have : y = x := by omega
      exact this ▸ List.mem_cons_self x xs
    · exact fun y hy => List.mem_cons_of_mem _ hy

theorem spanify_wf : ∀ (rest : List Nat) (start cur : Nat), start ≤ cur →
    List.Chain' (· < ·) (cur :: rest) → SpansWellFormed (spanify start cur rest) := by
  intro rest
  induction rest with
  | nil =>
    intro start cur hsc _
    constructor
    · intro s hs
      simp only [spanify, List.mem_singleton] at hs
      subst hs
      simpa using by omega
    · simp [spanify]
  | cons c cs ih =>
    intro start cur hsc hchain
    have hcc : cur < c := List.chain'_cons.mp hchain |>.1
    have hch : List.Chain' (· < ·) (c :: cs) := List.chain'_cons.mp hchain |>.2
    by_cases h : cur + 1 = c
    · simp only [spanify, if_pos h]
      exact ih start c (by omega) hch
    · simp only [spanify, if_neg h]
      have hwf := ih c c le_rfl hch
      constructor
      · intro s hs
        rcases List.mem_cons.mp hs with rfl | hs'
        · simp; omega
        · exact hwf.1 s hs'
      · refine List.Chain'.cons' hwf.2 ?_
        intro y hy
        obtain ⟨hi, tl, heq⟩ := spanify_head cs c c
        rw [heq] at hy
        simp only [List.head?_cons, Option.mem_def, Option.some.injEq] at hy
        subst hy
        simp
        omega

theorem spanify_count : ∀ (rest : List Nat) (start cur : Nat), start ≤ cur →
    List.Chain' (· < ·) (cur :: rest) →
    coveredCount (spanify start cur rest) = (cur + 1 - start) + rest.length := by
  intro rest
  induction rest with
  | nil =>
    intro start cur hsc _
    simp [spanify, coveredCount]
  | cons c cs ih =>
    intro start cur hsc hchain
    have hcc : cur < c := List.chain'_cons.mp hchain |>.1
    have hch : List.Chain' (· < ·) (c :: cs) := List.chain'_cons.mp hchain |>.2
    by_cases h : cur + 1 = c
    · simp only [spanify, if_pos h]
      rw [ih start c (by omega) hch]
      simp only [List.length_cons]
      omega
    · simp only [spanify, if_neg h]
      have := ih c c le_rfl hch
      simp only [coveredCount, List.map_cons, List.sum_cons] at *
      rw [this]
      simp only [List.length_cons]
      omega

theorem make_spans_wf {l : List Nat} (h : List.Chain' (· < ·) l) :
    SpansWellFormed (make_spans l) := by
  cases l with
  | nil => exact ⟨by simp [make_spans], by simp [make_spans]⟩
  | cons x xs => exact spanify_wf xs x x le_rfl h

theorem make_spans_count {l : List Nat} (h : List.Chain' (· < ·) l) :
    coveredCount (make_spans l) = l.length := by
  cases l with
  | nil => simp [make_spans, coveredCount]
  | cons x xs =>
    rw [show make_spans (x :: xs) = spanify x x xs from rfl, spanify_count xs x x le_rfl h]
    simp only [List.length_cons]
    omega

-- ### Lemmas about the collection loops of `next`

theorem collectPrio_length {f : Nat → Bool} {n : Nat} :
    ∀ (cs : List Candidate) (acc : List Nat), acc.length ≤ n →
      (collectPrio f n cs acc).length ≤ n := by
  intro cs
  induction cs with
  | nil => intro acc h; simpa [collectPrio] using h
  | cons c cs ih =>
    intro acc h
    simp only [collectPrio]
    split_ifs with h1 h2
    · exact h
    · exact ih acc h
    · refine ih _ ?_
      have ht := List.length_take (n - acc.length) c.unrequested
      simp only [List.length_append]
      omega

theorem collectSeq_length {f : Nat → Bool} {n : Nat} :
    ∀ (cs : List Candidate) (cur : Option (Int × Nat)) (acc : List Nat), acc.length ≤ n →
      (collectSeq f n cs cur acc).length ≤ n := by
  intro cs
  induction cs with
  | nil => intro cur acc h; simpa [collectSeq] using h
  | cons c cs ih =>
    intro cur acc h
    simp only [collectSeq]
    split_ifs with h1 h2 h3
    · exact h
    · exact h
    · exact ih _ acc h
    · refine ih _ _ ?_
      have ht := List.length_take (n - acc.length) c.unrequested
      simp only [List.length_append]
      omega

theorem collectPrio_mem {f : Nat → Bool} {n : Nat} :
    ∀ (cs : List Candidate) (acc : List Nat) (b : Nat), b ∈ collectPrio f n cs acc →
      b ∈ acc ∨ ∃ c ∈ cs, f c.piece = true ∧ b ∈ c.unrequested := by
  intro cs
  induction cs with
  | nil => intro acc b hb; simp only [collectPrio] at hb; exact Or.inl hb
  | cons c cs ih =>
    intro acc b hb
    simp only [collectPrio] at hb
    split_ifs at hb with h1 h2
    · exact Or.inl hb
    · rcases ih acc b hb with h | ⟨d, hd, hfd, hbd⟩
      · exact Or.inl h
      · exact Or.inr ⟨d, List.mem_cons_of_mem _ hd, hfd, hbd⟩
    · rcases ih _ b hb with h | ⟨d, hd, hfd, hbd⟩
      · rcases List.mem_append.mp h with h | h
        · exact Or.inl h
        · simp only [Bool.or_eq_true, Bool.not_eq_true', not_or, Bool.not_eq_false] at h2
          exact Or.inr ⟨c, List.mem_cons_self c cs, h2.1, List.take_subset _ _ h⟩
      · exact Or.inr ⟨d, List.mem_cons_of_mem _ hd, hfd, hbd⟩

theorem collectSeq_mem_some {f : Nat → Bool} {n : Nat} {m : Int × Nat} :
    ∀ (cs : List Candidate) (acc : List Nat), acc ≠ [] →
      ∀ b ∈ collectSeq f n cs (some m) acc,
        b ∈ acc ∨ ∃ c ∈ cs, (c.priority, c.file_index) = m ∧ f c.piece = true ∧
          b ∈ c.unrequested := by
  intro cs
  induction cs with
  | nil => intro acc _ b hb; simp only [collectSeq] at hb; exact Or.inl hb
  | cons c cs ih =>
    intro acc hacc b hb
    simp only [collectSeq, Option.getD_some] at hb
    split_ifs at hb with h1 h2 h3
    · exact Or.inl hb
    · exact Or.inl hb
    · have hm : (c.priority, c.file_index) = m := by
        by_contra hne
        exact h2 ⟨hne, hacc⟩
      rw [hm] at hb
      rcases ih acc hacc b hb with h | ⟨d, hd, hmd, hfd, hbd⟩
      · exact Or.inl h
      · exact Or.inr ⟨d, List.mem_cons_of_mem _ hd, hmd, hfd, hbd⟩
    · have hm : (c.priority, c.file_index) = m := by
        by_contra hne
        exact h2 ⟨hne, hacc⟩
      rw [hm] at hb
      have hacc' : acc ++ c.unrequested.take (n - acc.length) ≠ [] := by
        intro hcon
        exact hacc (List.append_eq_nil.mp hcon).1
      rcases ih _ hacc' b hb with h | ⟨d, hd, hmd, hfd, hbd⟩
      · rcases List.mem_append.mp h with h | h
        · exact Or.inl h
        · simp only [Bool.or_eq_true, Bool.not_eq_true', not_or, Bool.not_eq_false] at h3
          exact Or.inr ⟨c, List.mem_cons_self c cs, hm, h3.1, List.take_subset _ _ h⟩
      · exact Or.inr ⟨d, List.mem_cons_of_mem _ hd, hmd, hfd, hbd⟩

theorem collectSeq_mem_none {f : Nat → Bool} {n : Nat} :
    ∀ (cs : List Candidate) (current : Option (Int × Nat)),
      ∃ m : Int × Nat, ∀ b ∈ collectSeq f n cs current [],
        ∃ c ∈ cs, (c.priority, c.file_index) = m ∧ f c.piece = true ∧
          b ∈ c.unrequested := by
  intro cs
  induction cs with
  | nil => exact fun _ => ⟨(0, 0), by simp [collectSeq]⟩
  | cons c cs ih =>
    intro current
    by_cases h1 : n ≤ (0 : Nat)
    · exact ⟨(0, 0), by simp [collectSeq, h1]⟩
    · by_cases hg : (!f c.piece || c.unrequested.isEmpty) = true
      · obtain ⟨m, hm⟩ := ih (some (c.priority, c.file_index))
        refine ⟨m, fun b hb => ?_⟩
        simp only [collectSeq, List.length_nil, if_neg h1, ne_eq, not_true_eq_false,
          and_false, if_false, if_pos hg] at hb
        obtain ⟨d, hd, hrest⟩ := hm b hb
        exact ⟨d, List.mem_cons_of_mem _ hd, hrest⟩
      · refine ⟨(c.priority, c.file_index), fun b hb => ?_⟩
        simp only [collectSeq, List.length_nil, if_neg h1, ne_eq, not_true_eq_false,
          and_false, if_false, if_neg hg, List.nil_append] at hb
        have hne : c.unrequested.take (n - 0) ≠ [] := by
          simp only [Bool.or_eq_true, Bool.not_eq_true', not_or, Bool.not_eq_false] at hg
          have : c.unrequested ≠ [] := by
            intro hcon
            rw [hcon] at hg
            exact absurd rfl hg.2
          intro hcon
          rcases List.take_eq_nil_iff.mp hcon with h | h
          · omega
          · exact this h
        rcases collectSeq_mem_some cs _ hne b hb with h | ⟨d, hd, hmd, hfd, hbd⟩
        · simp only [Bool.or_eq_true, Bool.not_eq_true', not_or, Bool.not_eq_false] at hg
          exact ⟨c, List.mem_cons_self c cs, rfl, hg.1, List.take_subset _ _ h⟩
        · exact ⟨d, List.mem_cons_of_mem _ hd, hmd, hfd, hbd⟩

theorem collectPrio_all_requested {f : Nat → Bool} {n : Nat} :
    ∀ (cs : List Candidate) (acc : List Nat), (∀ c ∈ cs, c.unrequested = []) →
      collectPrio f n cs acc = acc := by
  intro cs
  induction cs with
  | nil => intro acc _; simp [collectPrio]
  | cons c cs ih =>
    intro acc hall
    have hc : c.unrequested.isEmpty = true := by
      rw [hall c (List.mem_cons_self c cs)]; rfl
    simp only [collectPrio, hc, Bool.or_true, if_true]
    split_ifs with h1
    · rfl
    · exact ih acc (fun d hd => hall d (List.mem_cons_of_mem _ hd))

theorem collectSeq_all_requested {f : Nat → Bool} {n : Nat} :
    ∀ (cs : List Candidate) (cur : Option (Int × Nat)) (acc : List Nat),
      (∀ c ∈ cs, c.unrequested = []) → collectSeq f n cs cur acc = acc := by
  intro cs
  induction cs with
  | nil => intro cur acc _; simp [collectSeq]
  | cons c cs ih =>
    intro cur acc hall
    have hc : c.unrequested.isEmpty = true := by
      rw [hall c (List.mem_cons_self c cs)]; rfl
    simp only [collectSeq, hc, Bool.or_true, if_true]
    split_ifs with h1 h2
    · rfl
    · rfl
    · exact ih _ acc (fun d hd => hall d (List.mem_cons_of_mem _ hd))

-- ### Structure-preservation helpers for the event handlers

theorem mem_insertAsc {a b : Nat} : ∀ {l : List Nat}, a ∈ insertAsc b l ↔ a = b ∨ a ∈ l := by
  intro l
  induction l with
  | nil => simp [insertAsc]
  | cons x xs ih =>
    simp only [insertAsc]
    split_ifs with h1 h2
    · simp
    · subst h2
      simp only [List.mem_cons]
      tauto
    · simp only [List.mem_cons, ih]
      tauto

theorem mem_foldr_insertAsc {req : Nat → Bool} :
    ∀ (l u : List Nat) (a : Nat),
      a ∈ l.foldr (fun b acc => if req b then insertAsc b acc else acc) u →
      a ∈ u ∨ a ∈ l := by
  intro l
  induction l with
  | nil => intro u a h; exact Or.inl h
  | cons x xs ih =>
    intro u a h
    simp only [List.foldr_cons] at h
    split_ifs at h with hr
    · rcases mem_insertAsc.mp h with rfl | h'
      · exact Or.inr (List.mem_cons_self _ _)
      · rcases ih u a h' with h | h
        · exact Or.inl h
        · exact Or.inr (List.mem_cons_of_mem _ h)
    · rcases ih u a h with h | h
      · exact Or.inl h
      · exact Or.inr (List.mem_cons_of_mem _ h)

/-- All fields of a candidate except its `unrequested` set; the handlers
that only mark blocks requested or unrequested leave it unchanged. -/
def Candidate.skel (c : Candidate) : Nat × Nat × BlockSpan × BlockSpan × Int :=
  (c.piece, c.file_index, c.block_span, c.raw_block_span, c.priority)

theorem skel_fields {a b : Candidate} (h : a.skel = b.skel) :
    a.piece = b.piece ∧ a.file_index = b.file_index ∧ a.block_span = b.block_span ∧
      a.raw_block_span = b.raw_block_span ∧ a.priority = b.priority := by
  unfold Candidate.skel at h
  simp only [Prod.mk.injEq] at h
  exact h

theorem sort_key_of_skel {a b : Candidate} (h : a.skel = b.skel) :
    a.sort_key = b.sort_key := by
  obtain ⟨h1, h2, _, _, h5⟩ := skel_fields h
  unfold Candidate.sort_key
  rw [h1, h2, h5]

theorem updateFirstContaining_mem {b : Nat} {f : Candidate → Candidate} :
    ∀ {cs cs' : List Candidate} {c0 : Candidate},
      updateFirstContaining b f cs = some (cs', c0) →
      ∀ c ∈ cs', c ∈ cs ∨ ∃ d ∈ cs, c = f d := by
  intro cs
  induction cs with
  | nil => intro _ _ h; simp [updateFirstContaining] at h
  | cons x xs ih =>
    intro cs' c0 h c hc
    by_cases hb : x.block_belongs b
    · simp only [updateFirstContaining, if_pos hb, Option.some.injEq, Prod.mk.injEq] at h
      rw [← h.1] at hc
      rcases List.mem_cons.mp hc with rfl | hc'
      · exact Or.inr ⟨x, List.mem_cons_self x xs, rfl⟩
      · exact Or.inl (List.mem_cons_of_mem _ hc')
    · simp only [updateFirstContaining, if_neg hb] at h
      cases h2 : updateFirstContaining b f xs with
      | none => rw [h2] at h; exact absurd h (by simp)
      | some pr =>
        obtain ⟨cs'', c0'⟩ := pr
        rw [h2] at h
        simp only [Option.some.injEq, Prod.mk.injEq] at h
        rw [← h.1] at hc
        rcases List.mem_cons.mp hc with rfl | hc'
        · exact Or.inl (List.mem_cons_self _ _)
        · rcases ih h2 c hc' with h' | ⟨d, hd, he⟩
          · exact Or.inl (List.mem_cons_of_mem _ h')
          · exact Or.inr ⟨d, List.mem_cons_of_mem _ hd, he⟩

theorem updateFirstContaining_map_skel {b : Nat} {f : Candidate → Candidate}
    (hf : ∀ c, (f c).skel = c.skel) :
    ∀ {cs cs' : List Candidate} {c0 : Candidate},
      updateFirstContaining b f cs = some (cs', c0) →
      cs'.map Candidate.skel = cs.map Candidate.skel := by
  intro cs
  induction cs with
  | nil => intro _ _ h; simp [updateFirstContaining] at h
  | cons x xs ih =>
    intro cs' c0 h
    by_cases hb : x.block_belongs b
    · simp only [updateFirstContaining, if_pos hb, Option.some.injEq, Prod.mk.injEq] at h
      rw [← h.1]
      simp only [List.map_cons, hf x]
    · simp only [updateFirstContaining, if_neg hb] at h
      cases h2 : updateFirstContaining b f xs with
      | none => rw [h2] at h; exact absurd h (by simp)
      | some pr =>
        obtain ⟨cs'', c0'⟩ := pr
        rw [h2] at h
        simp only [Option.some.injEq, Prod.mk.injEq] at h
        rw [← h.1]
        simp only [List.map_cons, ih h2]

theorem reset_block_map_skel (b : Nat) :
    ∀ (cs : List Candidate), (reset_block b cs).map Candidate.skel = cs.map Candidate.skel := by
  intro cs
  induction cs with
  | nil => rfl
  | cons c cs ih =>
    simp only [reset_block]
    split_ifs with h
    · simp only [List.map_cons]; rfl
    · simp only [List.map_cons, ih]

theorem client_got_block_map_skel (b : Nat) :
    ∀ (cs : List Candidate),
      (client_got_block b cs).map Candidate.skel = cs.map Candidate.skel := by
  intro cs
  induction cs with
  | nil => rfl
  | cons c cs ih =>
    simp only [client_got_block]
    split_ifs with h
    · simp only [List.map_cons]; rfl
    · simp only [List.map_cons, ih]

theorem reset_blocks_bitfield_map_skel (req : Nat → Bool) (cs : List Candidate) :
    (reset_blocks_bitfield req cs).map Candidate.skel = cs.map Candidate.skel := by
  unfold reset_blocks_bitfield
  rw [List.map_map]
  apply List.map_congr_left
  intro c _
  simp only [Function.comp_apply]
  split_ifs with h
  · rfl
  · rfl

theorem requested_from_map_skel {s : BlockSpan} :
    ∀ (fuel block : Nat) (cands cands' : List Candidate), s.hi - block ≤ fuel →
      requested_block_span_from s block cands = some cands' →
      cands'.map Candidate.skel = cands.map Candidate.skel := by
  intro fuel
  induction fuel with
  | zero =>
    intro block cands cands' hf h
    rw [requested_block_span_from, dif_neg (by omega : ¬block < s.hi)] at h
    rw [← Option.some.inj h]
  | succ fuel ih =>
    intro block cands cands' hf h
    rw [requested_block_span_from] at h
    by_cases hb : block < s.hi
    · rw [dif_pos hb] at h
      split at h
      · rw [← Option.some.inj h]
      · rename_i cs' c0 hu
        split_ifs at h with he
        have h1 := (updateFirstContaining_found hu).2
        have h2 := ih c0.block_span.hi cs' cands' (by omega) h
        have h3 := updateFirstContaining_map_skel
          (fun c : Candidate =>
            (rfl : ({ c with unrequested := eraseSpanBlocks s c.unrequested } : Candidate).skel
              = c.skel)) hu
        rw [h2, h3]
    · rw [dif_neg hb] at h
      rw [← Option.some.inj h]

-- ### The unrequested-containment invariant

/-- Every candidate's `unrequested` set lies inside its current block span. -/
def UnreqInSpan (cands : List Candidate) : Prop :=
  ∀ c ∈ cands, ∀ b ∈ c.unrequested, c.block_belongs b

theorem make_unreq_in_span (v : MediatorView) (p : Nat) :
    ∀ b ∈ (Candidate.make v p).unrequested, (Candidate.make v p).block_belongs b := by
  intro b hb
  show (v.block_span p).lo ≤ b ∧ b < (v.block_span p).hi
  simp only [Candidate.make] at hb
  have h1 := (List.mem_filter.mp hb).1
  rw [List.mem_range'_1] at h1
  omega

theorem unreqInSpan_of_perm {cs ds : List Candidate} (h : List.Perm cs ds)
    (hu : UnreqInSpan cs) : UnreqInSpan ds :=
  fun c hc => hu c (h.symm.subset hc)

theorem trimCand_unreq {e : Nat} {c : Candidate}
    (h : ∀ b ∈ c.unrequested, c.block_belongs b) :
    ∀ b ∈ (trimCand e c).unrequested, (trimCand e c).block_belongs b := by
  unfold trimCand
  split_ifs with hc
  · intro b hb
    simp only [List.mem_filter] at hb
    have h1 := h b hb.1
    have h2 := of_decide_eq_true hb.2
    unfold Candidate.block_belongs at h1 ⊢
    simp only at h1 ⊢
    rcases h2 with h2 | h2
    · omega
    · exact ⟨h2, h1.2⟩
  · exact h

theorem trimFrom_unreq : ∀ (cs : List Candidate) (e : Nat),
    UnreqInSpan cs → UnreqInSpan (trimFrom e cs) := by
  intro cs
  induction cs with
  | nil => intro e _ c hc; simp [trimFrom] at hc
  | cons c cs ih =>
    intro e hu d hd
    simp only [trimFrom, List.mem_cons] at hd
    rcases hd with rfl | hd
    · exact trimCand_unreq (hu c (List.mem_cons_self c cs))
    · exact ih _ (fun x hx => hu x (List.mem_cons_of_mem _ hx)) d hd

theorem trimOverlaps_unreq {cs : List Candidate} (hu : UnreqInSpan cs) :
    UnreqInSpan (trimOverlaps cs) := by
  cases cs with
  | nil => intro c hc; simp [trimOverlaps] at hc
  | cons c cs =>
    intro d hd
    simp only [trimOverlaps, List.mem_cons] at hd
    rcases hd with rfl | hd
    · exact hu d (List.mem_cons_self d cs)
    · exact trimFrom_unreq cs _ (fun x hx => hu x (List.mem_cons_of_mem _ hx)) d hd

theorem upkeep_unreq (v : MediatorView) : UnreqInSpan (candidate_list_upkeep v) := by
  unfold candidate_list_upkeep
  apply trimOverlaps_unreq
  apply unreqInSpan_of_perm (List.perm_insertionSort candLe _).symm
  intro c hc
  obtain ⟨p, _, rfl⟩ := List.mem_map.mp hc
  exact make_unreq_in_span v p

theorem reset_block_unreq (b : Nat) : ∀ (cs : List Candidate),
    UnreqInSpan cs → UnreqInSpan (reset_block b cs) := by
  intro cs
  induction cs with
  | nil => intro _ c hc; simp [reset_block] at hc
  | cons c cs ih =>
    intro hu d hd
    simp only [reset_block] at hd
    split_ifs at hd with h
    · rcases List.mem_cons.mp hd with rfl | hd'
      · intro x hx
        rcases mem_insertAsc.mp hx with rfl | hx'
        · exact h
        · exact hu c (List.mem_cons_self c cs) x hx'
      · exact hu d (List.mem_cons_of_mem _ hd')
    · rcases List.mem_cons.mp hd with rfl | hd'
      · exact hu d (List.mem_cons_self d cs)
      · exact ih (fun x hx => hu x (List.mem_cons_of_mem _ hx)) d hd'

theorem client_got_block_unreq (b : Nat) : ∀ (cs : List Candidate),
    UnreqInSpan cs → UnreqInSpan (client_got_block b cs) := by
  intro cs
  induction cs with
  | nil => intro _ c hc; simp [client_got_block] at hc
  | cons c cs ih =>
    intro hu d hd
    simp only [client_got_block] at hd
    split_ifs at hd with h
    · rcases List.mem_cons.mp hd with rfl | hd'
      · exact fun x hx => hu c (List.mem_cons_self c cs) x (List.mem_of_mem_filter hx)
      · exact hu d (List.mem_cons_of_mem _ hd')
    · rcases List.mem_cons.mp hd with rfl | hd'
      · exact hu d (List.mem_cons_self d cs)
      · exact ih (fun x hx => hu x (List.mem_cons_of_mem _ hx)) d hd'

theorem reset_blocks_bitfield_unreq (req : Nat → Bool) (cs : List Candidate)
    (hu : UnreqInSpan cs) : UnreqInSpan (reset_blocks_bitfield req cs) := by
  intro d hd
  simp only [reset_blocks_bitfield, List.mem_map] at hd
  obtain ⟨c, hc, rfl⟩ := hd
  split_ifs with h
  · exact hu c hc
  · intro b hb
    rcases mem_foldr_insertAsc _ _ _ hb with hb' | hb'
    · exact hu c hc b hb'
    · rw [List.mem_range'_1] at hb'
      show c.block_span.lo ≤ b ∧ b < c.block_span.hi
      omega

theorem got_bad_piece_unreq (p : Nat) (hcb : Nat → Bool) : ∀ (cs : List Candidate),
    UnreqInSpan cs → UnreqInSpan (got_bad_piece p hcb cs) := by
  intro cs
  induction cs with
  | nil => intro _ c hc; simp [got_bad_piece] at hc
  | cons c cs ih =>
    intro hu d hd
    simp only [got_bad_piece] at hd
    split_ifs at hd with h
    · rcases List.mem_cons.mp hd with rfl | hd'
      · intro b hb
        have h1 := (List.mem_filter.mp hb).1
        rw [List.mem_range'_1] at h1
        show c.raw_block_span.lo ≤ b ∧ b < c.raw_block_span.hi
        omega
      · exact hu d (List.mem_cons_of_mem _ hd')
    · rcases List.mem_cons.mp hd with rfl | hd'
      · exact hu d (List.mem_cons_self d cs)
      · exact ih (fun x hx => hu x (List.mem_cons_of_mem _ hx)) d hd'

theorem remove_piece_unreq (p : Nat) (cs : List Candidate) (hu : UnreqInSpan cs) :
    UnreqInSpan (remove_piece p cs) :=
  fun c hc => hu c ((List.eraseP_sublist cs).subset hc)

theorem recalculate_priority_unreq (prio : Nat → Int) (cs : List Candidate)
    (hu : UnreqInSpan cs) : UnreqInSpan (recalculate_priority prio cs) := by
  unfold recalculate_priority sort_candidates
  apply unreqInSpan_of_perm (List.perm_insertionSort candLe _).symm
  intro d hd
  obtain ⟨c, hc, rfl⟩ := List.mem_map.mp hd
  exact hu c hc

theorem requested_from_unreq {s : BlockSpan} :
    ∀ (fuel block : Nat) (cands cands' : List Candidate), s.hi - block ≤ fuel →
      UnreqInSpan cands → requested_block_span_from s block cands = some cands' →
      UnreqInSpan cands' := by
  intro fuel
  induction fuel with
  | zero =>
    intro block cands cands' hf hu h
    rw [requested_block_span_from, dif_neg (by omega : ¬block < s.hi)] at h
    exact Option.some.inj h ▸ hu
  | succ fuel ih =>
    intro block cands cands' hf hu h
    rw [requested_block_span_from] at h
    by_cases hb : block < s.hi
    · rw [dif_pos hb] at h
      split at h
      · exact Option.some.inj h ▸ hu
      · rename_i cs' c0 hu'
        split_ifs at h with he
        have h1 := (updateFirstContaining_found hu').2
        refine ih c0.block_span.hi cs' cands' (by omega) ?_ h
        intro c hc
        rcases updateFirstContaining_mem hu' c hc with hc' | ⟨d, hd, rfl⟩
        · exact hu c hc'
        · intro b hbm
          exact hu d hd b (List.mem_of_mem_filter hbm)
    · rw [dif_neg hb] at h
      exact Option.some.inj h ▸ hu

theorem unreqInSpan_step (cands : List Candidate) (e : WishEvent) (hu : UnreqInSpan cands) :
    ∀ cands', step cands e = some cands' → UnreqInSpan cands' := by
  cases e with
  | files_wanted_changed v =>
    intro cands' h
    exact Option.some.inj h ▸ upkeep_unreq v
  | peer_disconnect req =>
    intro cands' h
    exact Option.some.inj h ▸ reset_blocks_bitfield_unreq req cands hu
  | got_bad_piece p hcb =>
    intro cands' h
    exact Option.some.inj h ▸ got_bad_piece_unreq p hcb cands hu
  | got_block b =>
    intro cands' h
    exact Option.some.inj h ▸ client_got_block_unreq b cands hu
  | got_choke req =>
    intro cands' h
    exact Option.some.inj h ▸ reset_blocks_bitfield_unreq req cands hu
  | got_reject b =>
    intro cands' h
    exact Option.some.inj h ▸ reset_block_unreq b cands hu
  | piece_completed p =>
    intro cands' h
    exact Option.some.inj h ▸ remove_piece_unreq p cands hu
  | priority_changed prio =>
    intro cands' h
    exact Option.some.inj h ▸ recalculate_priority_unreq prio cands hu
  | sent_cancel b =>
    intro cands' h
    exact Option.some.inj h ▸ reset_block_unreq b cands hu
  | sent_request s =>
    intro cands' h
    exact requested_from_unreq (s.hi - s.lo) s.lo cands cands' le_rfl hu h

theorem run_preserve {P : List Candidate → Prop} {Q : WishEvent → Prop}
    (hstep : ∀ cands e, Q e → P cands → ∀ cands', step cands e = some cands' → P cands') :
    ∀ (evs : List WishEvent) (cands cands' : List Candidate),
      (∀ e ∈ evs, Q e) → P cands → run cands evs = some cands' → P cands' := by
  intro evs
  induction evs with
  | nil =>
    intro cands cands' _ hp h
    simp only [run] at h
    exact Option.some.inj h ▸ hp
  | cons e es ih =>
    intro cands cands' hq hp h
    simp only [run] at h
    cases hs : step cands e with
    | none => rw [hs] at h; exact absurd h (by simp)
    | some c1 =>
      rw [hs] at h
      exact ih c1 cands' (fun e' he' => hq e' (List.mem_cons_of_mem _ he'))
        (hstep cands e (hq e (List.mem_cons_self e es)) hp c1 hs) h

-- ### The sort-order invariant

/-- Invariant: the directory is strictly sorted by the static key, and no
two candidates track the same piece. -/
def KeysInv (cands : List Candidate) : Prop :=
  List.Pairwise candLt cands ∧ (cands.map Candidate.piece).Nodup

theorem map_piece_eq_of_map_key {cs ds : List Candidate}
    (h : cs.map Candidate.sort_key = ds.map Candidate.sort_key) :
    cs.map Candidate.piece = ds.map Candidate.piece := by
  have e : ∀ (l : List Candidate), l.map Candidate.piece =
      (l.map Candidate.sort_key).map (fun k => k.2.2) := by
    intro l
    rw [List.map_map]
    rfl
  rw [e, e, h]

theorem pairwise_candLt_of_map_key {cs ds : List Candidate}
    (h : cs.map Candidate.sort_key = ds.map Candidate.sort_key)
    (hp : List.Pairwise candLt cs) : List.Pairwise candLt ds := by
  have h1 : List.Pairwise keyLt (cs.map Candidate.sort_key) :=
    List.pairwise_map.mpr (hp.imp (fun hab => hab))
  rw [h] at h1
  exact (List.pairwise_map.mp h1).imp (fun hab => hab)

theorem keysInv_of_map_key {cs ds : List Candidate}
    (h : cs.map Candidate.sort_key = ds.map Candidate.sort_key)
    (hk : KeysInv cs) : KeysInv ds :=
  ⟨pairwise_candLt_of_map_key h hk.1, map_piece_eq_of_map_key h ▸ hk.2⟩

theorem map_key_of_map_skel {cs ds : List Candidate}
    (h : cs.map Candidate.skel = ds.map Candidate.skel) :
    cs.map Candidate.sort_key = ds.map Candidate.sort_key := by
  have e : ∀ (l : List Candidate), l.map Candidate.sort_key =
      (l.map Candidate.skel).map (fun x => (-x.2.2.2.2, x.2.1, x.1)) := by
    intro l
    rw [List.map_map]
    rfl
  rw [e, e, h]

theorem got_bad_piece_map_key (p : Nat) (hcb : Nat → Bool) :
    ∀ (cs : List Candidate),
      (got_bad_piece p hcb cs).map Candidate.sort_key = cs.map Candidate.sort_key := by
  intro cs
  induction cs with
  | nil => rfl
  | cons c cs ih =>
    simp only [got_bad_piece]
    split_ifs with h
    · simp only [List.map_cons]; rfl
    · simp only [List.map_cons, ih]

theorem sort_candidates_strict {cs : List Candidate}
    (h : (cs.map Candidate.piece).Nodup) :
    List.Pairwise candLt (sort_candidates cs) := by
  have hs : List.Pairwise candLe (sort_candidates cs) := List.sorted_insertionSort candLe cs
  have hperm : List.Perm (sort_candidates cs) cs := List.perm_insertionSort candLe cs
  have hnd : ((sort_candidates cs).map Candidate.piece).Nodup :=
    ((hperm.map Candidate.piece).nodup_iff).mpr h
  have hpd : List.Pairwise (fun a b : Candidate => a.piece ≠ b.piece) (sort_candidates cs) :=
    List.pairwise_map.mp hnd
  refine (hs.and hpd).imp ?_
  rintro a b ⟨hle, hne⟩
  exact keyLe_of_ne_keyLt hle (fun he => hne (congrArg (fun k : Int × Nat × Nat => k.2.2) he))

theorem keysInv_sort {cs : List Candidate} (h : (cs.map Candidate.piece).Nodup) :
    KeysInv (sort_candidates cs) :=
  ⟨sort_candidates_strict h,
    ((List.perm_insertionSort candLe cs).map Candidate.piece).nodup_iff.mpr h⟩

theorem trimFrom_map_key : ∀ (cs : List Candidate) (e : Nat),
    (trimFrom e cs).map Candidate.sort_key = cs.map Candidate.sort_key := by
  intro cs
  induction cs with
  | nil => intro e; rfl
  | cons c cs ih =>
    intro e
    simp only [trimFrom, List.map_cons]
    congr 1
    · unfold trimCand
      split_ifs with h
      · rfl
      · rfl
    · exact ih _

theorem trimOverlaps_map_key (cs : List Candidate) :
    (trimOverlaps cs).map Candidate.sort_key = cs.map Candidate.sort_key := by
  cases cs with
  | nil => rfl
  | cons c cs =>
    simp only [trimOverlaps, List.map_cons, trimFrom_map_key]

theorem upkeep_keys (v : MediatorView) : KeysInv (candidate_list_upkeep v) := by
  unfold candidate_list_upkeep
  have hnd : ((((List.range v.piece_count).filter
      (fun p => v.client_wants_piece p && !v.client_has_piece p)).map
        (Candidate.make v)).map Candidate.piece).Nodup := by
    rw [List.map_map]
    have he : (Candidate.piece ∘ Candidate.make v) = id := by
      funext p
      rfl
    rw [he, List.map_id]
    exact (List.nodup_range v.piece_count).filter _
  exact keysInv_of_map_key (trimOverlaps_map_key _).symm (keysInv_sort hnd)

theorem recalculate_priority_keys (prio : Nat → Int) (cs : List Candidate)
    (hk : KeysInv cs) : KeysInv (recalculate_priority prio cs) := by
  unfold recalculate_priority
  apply keysInv_sort
  rw [List.map_map]
  have he : (Candidate.piece ∘ fun c => { c with priority := prio c.piece }) =
      Candidate.piece := by
    funext c
    rfl
  rw [he]
  exact hk.2

theorem remove_piece_keys (p : Nat) (cs : List Candidate) (hk : KeysInv cs) :
    KeysInv (remove_piece p cs) := by
  unfold remove_piece
  exact ⟨List.Pairwise.sublist (List.eraseP_sublist cs) hk.1,
    List.Nodup.sublist ((List.eraseP_sublist cs).map Candidate.piece) hk.2⟩

theorem keysInv_step (cands : List Candidate) (e : WishEvent) (hk : KeysInv cands) :
    ∀ cands', step cands e = some cands' → KeysInv cands' := by
  cases e with
  | files_wanted_changed v =>
    intro cands' h
    exact Option.some.inj h ▸ upkeep_keys v
  | peer_disconnect req =>
    intro cands' h
    refine Option.some.inj h ▸ keysInv_of_map_key ?_ hk
    exact (map_key_of_map_skel (reset_blocks_bitfield_map_skel req cands)).symm
  | got_bad_piece p hcb =>
    intro cands' h
    exact Option.some.inj h ▸ keysInv_of_map_key (got_bad_piece_map_key p hcb cands).symm hk
  | got_block b =>
    intro cands' h
    exact Option.some.inj h ▸
      keysInv_of_map_key (map_key_of_map_skel (client_got_block_map_skel b cands)).symm hk
  | got_choke req =>
    intro cands' h
    exact Option.some.inj h ▸
      keysInv_of_map_key (map_key_of_map_skel (reset_blocks_bitfield_map_skel req cands)).symm hk
  | got_reject b =>
    intro cands' h
    exact Option.some.inj h ▸
      keysInv_of_map_key (map_key_of_map_skel (reset_block_map_skel b cands)).symm hk
  | piece_completed p =>
    intro cands' h
    exact Option.some.inj h ▸ remove_piece_keys p cands hk
  | priority_changed prio =>
    intro cands' h
    exact Option.some.inj h ▸ recalculate_priority_keys prio cands hk
  | sent_cancel b =>
    intro cands' h
    exact Option.some.inj h ▸
      keysInv_of_map_key (map_key_of_map_skel (reset_block_map_skel b cands)).symm hk
  | sent_request s =>
    intro cands' h
    exact keysInv_of_map_key
      (map_key_of_map_skel (requested_from_map_skel (s.hi - s.lo) s.lo cands cands' le_rfl h)).symm hk

theorem perm_pairwise_eq {α : Type} {r : α → α → Prop}
    (hasymm : ∀ a b, r a b → ¬r b a) :
    ∀ (l1 l2 : List α), List.Perm l1 l2 → List.Pairwise r l1 → List.Pairwise r l2 →
      l1 = l2 := by
  intro l1
  induction l1 with
  | nil =>
    intro l2 hp _ _
    exact hp.nil_eq
  | cons a t ih =>
    intro l2 hp hp1 hp2
    cases l2 with
    | nil =>
      have := hp.length_eq
      simp at this
    | cons b t2 =>
      by_cases hab : a = b
      · subst hab
        have ht : List.Perm t t2 := hp.cons_inv
        rw [ih t2 ht (List.pairwise_cons.mp hp1).2 (List.pairwise_cons.mp hp2).2]
      · have ha2 : a ∈ b :: t2 := hp.subset (List.mem_cons_self a t)
        have ha2' : a ∈ t2 := by
          rcases List.mem_cons.mp ha2 with h | h
          · exact absurd h hab
          · exact h
        have hb1 : b ∈ a :: t := hp.symm.subset (List.mem_cons_self b t2)
        have hb1' : b ∈ t := by
          rcases List.mem_cons.mp hb1 with h | h
          · exact absurd h.symm hab
          · exact h
        have h1 : r a b := (List.pairwise_cons.mp hp1).1 b hb1'
        have h2 : r b a := (List.pairwise_cons.mp hp2).1 a ha2'
        exact absurd h1 (hasymm b a h2)

-- ### The raw-span containment and disjointness invariant

/-- A mediator whose block-span layout is sane: distinct pieces have
disjoint raw block spans, and every span lies below the torrent's total
block count `T`. -/
def GoodView (T : Nat) (v : MediatorView) : Prop :=
  (∀ p q, p < v.piece_count → q < v.piece_count → p ≠ q →
    BlockSpan.disjoint (v.block_span p) (v.block_span q)) ∧
  (∀ p, p < v.piece_count → ∀ b, (v.block_span p).covers b → b < T)

/-- Restriction of trace events: every full rebuild happens against a
mediator with a sane span layout. -/
def EventGood (T : Nat) : WishEvent → Prop
  | .files_wanted_changed v => GoodView T v
  | _ => True

/-- Invariant: every candidate's span is inside its raw span, raw spans are
pairwise disjoint, and raw spans lie below `T`. -/
def RawsOk (T : Nat) (cands : List Candidate) : Prop :=
  (∀ c ∈ cands, ∀ b, c.block_span.covers b → c.raw_block_span.covers b) ∧
  List.Pairwise (fun a b : Candidate =>
    BlockSpan.disjoint a.raw_block_span b.raw_block_span) cands ∧
  (∀ c ∈ cands, ∀ b, c.raw_block_span.covers b → b < T)

theorem disjoint_symm {s t : BlockSpan} (h : BlockSpan.disjoint s t) :
    BlockSpan.disjoint t s :=
  fun b hb => h b ⟨hb.2, hb.1⟩

theorem exists_skel_of_map_skel {cs ds : List Candidate}
    (h : cs.map Candidate.skel = ds.map Candidate.skel) {d : Candidate} (hd : d ∈ ds) :
    ∃ c ∈ cs, c.skel = d.skel := by
  have hm : d.skel ∈ ds.map Candidate.skel := List.mem_map_of_mem _ hd
  rw [← h] at hm
  exact List.mem_map.mp hm

theorem pairwise_raw_disjoint_of_map_raw {cs ds : List Candidate}
    (h : cs.map Candidate.raw_block_span = ds.map Candidate.raw_block_span)
    (hp : List.Pairwise (fun a b : Candidate =>
      BlockSpan.disjoint a.raw_block_span b.raw_block_span) cs) :
    List.Pairwise (fun a b : Candidate =>
      BlockSpan.disjoint a.raw_block_span b.raw_block_span) ds := by
  have h1 : List.Pairwise BlockSpan.disjoint (cs.map Candidate.raw_block_span) :=
    List.pairwise_map.mpr (hp.imp (fun hab => hab))
  rw [h] at h1
  exact (List.pairwise_map.mp h1).imp (fun hab => hab)

theorem rawsOk_of_map_skel {T : Nat} {cs ds : List Candidate}
    (h : cs.map Candidate.skel = ds.map Candidate.skel) (hr : RawsOk T cs) :
    RawsOk T ds := by
  have hraw : cs.map Candidate.raw_block_span = ds.map Candidate.raw_block_span := by
    have e : ∀ (l : List Candidate), l.map Candidate.raw_block_span =
        (l.map Candidate.skel).map (fun x => x.2.2.2.1) := by
      intro l
      rw [List.map_map]
      rfl
    rw [e, e, h]
  refine ⟨?_, pairwise_raw_disjoint_of_map_raw hraw hr.2.1, ?_⟩
  · intro d hd b hb
    obtain ⟨c, hc, he⟩ := exists_skel_of_map_skel h hd
    obtain ⟨_, _, hsp, hrw, _⟩ := skel_fields he
    rw [← hrw]
    exact hr.1 c hc b (hsp ▸ hb)
  · intro d hd b hb
    obtain ⟨c, hc, he⟩ := exists_skel_of_map_skel h hd
    obtain ⟨_, _, _, hrw, _⟩ := skel_fields he
    exact hr.2.2 c hc b (hrw ▸ hb)

theorem trimCand_raw (e : Nat) (c : Candidate) :
    (trimCand e c).raw_block_span = c.raw_block_span := by
  unfold trimCand
  split_ifs with h
  · rfl
  · rfl

theorem trimCand_span_sub {e : Nat} {c : Candidate}
    (h : ∀ b, c.block_span.covers b → c.raw_block_span.covers b) :
    ∀ b, (trimCand e c).block_span.covers b → (trimCand e c).raw_block_span.covers b := by
  unfold trimCand
  split_ifs with hc
  · intro b hb
    have h1 : e ≤ b := hb.1
    have h2 : b < c.block_span.hi := hb.2
    exact h b ⟨by omega, h2⟩
  · exact h

theorem trimFrom_map_raw : ∀ (cs : List Candidate) (e : Nat),
    (trimFrom e cs).map Candidate.raw_block_span = cs.map Candidate.raw_block_span := by
  intro cs
  induction cs with
  | nil => intro e; rfl
  | cons c cs ih =>
    intro e
    simp only [trimFrom, List.map_cons, trimCand_raw, ih]

theorem trimFrom_span_sub : ∀ (cs : List Candidate) (e : Nat),
    (∀ c ∈ cs, ∀ b, c.block_span.covers b → c.raw_block_span.covers b) →
    ∀ c ∈ trimFrom e cs, ∀ b, c.block_span.covers b → c.raw_block_span.covers b := by
  intro cs
  induction cs with
  | nil => intro e _ c hc; simp [trimFrom] at hc
  | cons c cs ih =>
    intro e hs d hd
    simp only [trimFrom, List.mem_cons] at hd
    rcases hd with rfl | hd
    · exact trimCand_span_sub (hs c (List.mem_cons_self c cs))
    · exact ih _ (fun x hx => hs x (List.mem_cons_of_mem _ hx)) d hd

theorem trimOverlaps_raws {T : Nat} {cs : List Candidate} (hr : RawsOk T cs) :
    RawsOk T (trimOverlaps cs) := by
  cases cs with
  | nil => exact hr
  | cons c cs =>
    obtain ⟨h1, h2, h3⟩ := hr
    have hmap : (trimFrom c.block_span.hi cs).map Candidate.raw_block_span =
        cs.map Candidate.raw_block_span := trimFrom_map_raw cs _
    refine ⟨?_, ?_, ?_⟩
    · intro d hd
      simp only [trimOverlaps, List.mem_cons] at hd
      rcases hd with rfl | hd
      · exact h1 d (List.mem_cons_self d cs)
      · exact trimFrom_span_sub cs _ (fun x hx => h1 x (List.mem_cons_of_mem _ hx)) d hd
    · rw [show trimOverlaps (c :: cs) = c :: trimFrom c.block_span.hi cs from rfl]
      rw [List.pairwise_cons]
      constructor
      · intro d hd
        have : d.raw_block_span ∈ cs.map Candidate.raw_block_span := by
          rw [← hmap]
          exact List.mem_map_of_mem _ hd
        obtain ⟨x, hx, he⟩ := List.mem_map.mp this
        rw [← he]
        exact (List.pairwise_cons.mp h2).1 x hx
      · exact pairwise_raw_disjoint_of_map_raw hmap.symm (List.pairwise_cons.mp h2).2
    · intro d hd
      simp only [trimOverlaps, List.mem_cons] at hd
      rcases hd with rfl | hd
      · exact h3 d (List.mem_cons_self d cs)
      · intro b hb
        have : d.raw_block_span ∈ cs.map Candidate.raw_block_span := by
          rw [← hmap]
          exact List.mem_map_of_mem _ hd
        obtain ⟨x, hx, he⟩ := List.mem_map.mp this
        exact h3 x (List.mem_cons_of_mem _ hx) b (he ▸ hb)

theorem rawsOk_of_perm {T : Nat} {cs ds : List Candidate} (h : List.Perm cs ds)
    (hr : RawsOk T cs) : RawsOk T ds := by
  refine ⟨fun c hc => hr.1 c (h.symm.subset hc), ?_, fun c hc => hr.2.2 c (h.symm.subset hc)⟩
  exact (h.pairwise_iff (fun hab => disjoint_symm hab)).mp hr.2.1

theorem upkeep_raws {T : Nat} (v : MediatorView) (hv : GoodView T v) :
    RawsOk T (candidate_list_upkeep v) := by
  unfold candidate_list_upkeep
  apply trimOverlaps_raws
  apply rawsOk_of_perm (List.perm_insertionSort candLe _).symm
  refine ⟨?_, ?_, ?_⟩
  · intro c hc b hb
    obtain ⟨p, _, rfl⟩ := List.mem_map.mp hc
    exact hb
  · rw [List.pairwise_map]
    have hnd : List.Pairwise (fun p q : Nat => p ≠ q) ((List.range v.piece_count).filter
        (fun p => v.client_wants_piece p && !v.client_has_piece p)) :=
      (List.nodup_range v.piece_count).filter _
    refine List.Pairwise.imp_of_mem ?_ hnd
    intro p q hp hq hne
    have hp' : p < v.piece_count := List.mem_range.mp (List.mem_of_mem_filter hp)
    have hq' : q < v.piece_count := List.mem_range.mp (List.mem_of_mem_filter hq)
    exact hv.1 p q hp' hq' hne
  · intro c hc b hb
    obtain ⟨p, hp, rfl⟩ := List.mem_map.mp hc
    have hp' : p < v.piece_count := List.mem_range.mp (List.mem_of_mem_filter hp)
    exact hv.2 p hp' b hb

theorem got_bad_piece_map_raw (p : Nat) (hcb : Nat → Bool) :
    ∀ (cs : List Candidate),
      (got_bad_piece p hcb cs).map Candidate.raw_block_span =
        cs.map Candidate.raw_block_span := by
  intro cs
  induction cs with
  | nil => rfl
  | cons c cs ih =>
    simp only [got_bad_piece]
    split_ifs with h
    · simp only [List.map_cons]
    · simp only [List.map_cons, ih]

theorem got_bad_piece_raws {T : Nat} (p : Nat) (hcb : Nat → Bool) :
    ∀ (cs : List Candidate), RawsOk T cs → RawsOk T (got_bad_piece p hcb cs) := by
  intro cs
  induction cs with
  | nil => intro h; exact h
  | cons c cs ih =>
    intro hr
    obtain ⟨h1, h2, h3⟩ := hr
    simp only [got_bad_piece]
    split_ifs with h
    · refine ⟨?_, ?_, ?_⟩
      · intro d hd
        rcases List.mem_cons.mp hd with rfl | hd'
        · exact fun b hb => hb
        · exact h1 d (List.mem_cons_of_mem _ hd')
      · rw [List.pairwise_cons]
        exact ⟨fun d hd => (List.pairwise_cons.mp h2).1 d hd, (List.pairwise_cons.mp h2).2⟩
      · intro d hd
        rcases List.mem_cons.mp hd with rfl | hd'
        · exact h3 c (List.mem_cons_self c cs)
        · exact h3 d (List.mem_cons_of_mem _ hd')
    · have hr' : RawsOk T (got_bad_piece p hcb cs) :=
        ih ⟨fun x hx => h1 x (List.mem_cons_of_mem _ hx), (List.pairwise_cons.mp h2).2,
          fun x hx => h3 x (List.mem_cons_of_mem _ hx)⟩
      have hmap := got_bad_piece_map_raw p hcb cs
      refine ⟨?_, ?_, ?_⟩
      · intro d hd
        rcases List.mem_cons.mp hd with rfl | hd'
        · exact h1 d (List.mem_cons_self d cs)
        · exact hr'.1 d hd'
      · rw [List.pairwise_cons]
        constructor
        · intro d hd
          have : d.raw_block_span ∈ cs.map Candidate.raw_block_span := by
            rw [← hmap]
            exact List.mem_map_of_mem _ hd
          obtain ⟨x, hx, he⟩ := List.mem_map.mp this
          rw [← he]
          exact (List.pairwise_cons.mp h2).1 x hx
        · exact hr'.2.1
      · intro d hd
        rcases List.mem_cons.mp hd with rfl | hd'
        · exact h3 d (List.mem_cons_self d cs)
        · exact hr'.2.2 d hd'

theorem remove_piece_raws {T : Nat} (p : Nat) (cs : List Candidate) (hr : RawsOk T cs) :
    RawsOk T (remove_piece p cs) := by
  unfold remove_piece
  refine ⟨fun c hc => hr.1 c ((List.eraseP_sublist cs).subset hc),
    List.Pairwise.sublist (List.eraseP_sublist cs) hr.2.1,
    fun c hc => hr.2.2 c ((List.eraseP_sublist cs).subset hc)⟩

theorem recalculate_priority_raws {T : Nat} (prio : Nat → Int) (cs : List Candidate)
    (hr : RawsOk T cs) : RawsOk T (recalculate_priority prio cs) := by
  unfold recalculate_priority
  apply rawsOk_of_perm (List.perm_insertionSort candLe _).symm
  refine ⟨?_, ?_, ?_⟩
  · intro d hd
    obtain ⟨c, hc, rfl⟩ := List.mem_map.mp hd
    exact hr.1 c hc
  · have hmap : (cs.map fun c => { c with priority := prio c.piece }).map
        Candidate.raw_block_span = cs.map Candidate.raw_block_span := by
      rw [List.map_map]
      rfl
    exact pairwise_raw_disjoint_of_map_raw hmap.symm hr.2.1
  · intro d hd
    obtain ⟨c, hc, rfl⟩ := List.mem_map.mp hd
    exact hr.2.2 c hc

theorem rawsOk_step {T : Nat} (cands : List Candidate) (e : WishEvent)
    (hq : EventGood T e) (hr : RawsOk T cands) :
    ∀ cands', step cands e = some cands' → RawsOk T cands' := by
  cases e with
  | files_wanted_changed v =>
    intro cands' h
    exact Option.some.inj h ▸ upkeep_raws v hq
  | peer_disconnect req =>
    intro cands' h
    exact Option.some.inj h ▸ rawsOk_of_map_skel (reset_blocks_bitfield_map_skel req cands).symm hr
  | got_bad_piece p hcb =>
    intro cands' h
    exact Option.some.inj h ▸ got_bad_piece_raws p hcb cands hr
  | got_block b =>
    intro cands' h
    exact Option.some.inj h ▸ rawsOk_of_map_skel (client_got_block_map_skel b cands).symm hr
  | got_choke req =>
    intro cands' h
    exact Option.some.inj h ▸ rawsOk_of_map_skel (reset_blocks_bitfield_map_skel req cands).symm hr
  | got_reject b =>
    intro cands' h
    exact Option.some.inj h ▸ rawsOk_of_map_skel (reset_block_map_skel b cands).symm hr
  | piece_completed p =>
    intro cands' h
    exact Option.some.inj h ▸ remove_piece_raws p cands hr
  | priority_changed prio =>
    intro cands' h
    exact Option.some.inj h ▸ recalculate_priority_raws prio cands hr
  | sent_cancel b =>
    intro cands' h
    exact Option.some.inj h ▸ rawsOk_of_map_skel (reset_block_map_skel b cands).symm hr
  | sent_request s =>
    intro cands' h
    exact rawsOk_of_map_skel (requested_from_map_skel (s.hi - s.lo) s.lo cands cands' le_rfl h).symm hr

-- ### Duplicate-freedom of the collection loops

theorem collectPrio_nodup {f : Nat → Bool} {n : Nat} :
    ∀ (cs : List Candidate) (acc : List Nat), acc.Nodup →
      (∀ b ∈ acc, ∀ c ∈ cs, b ∉ c.unrequested) →
      List.Pairwise (fun c d : Candidate => ∀ b ∈ c.unrequested, b ∉ d.unrequested) cs →
      (∀ c ∈ cs, c.unrequested.Nodup) →
      (collectPrio f n cs acc).Nodup := by
  intro cs
  induction cs with
  | nil => intro acc h _ _ _; simpa [collectPrio] using h
  | cons c cs ih =>
    intro acc hnd hdis hpw hund
    simp only [collectPrio]
    split_ifs with h1 h2
    · exact hnd
    · exact ih acc hnd (fun b hb d hd => hdis b hb d (List.mem_cons_of_mem _ hd))
        (List.pairwise_cons.mp hpw).2 (fun d hd => hund d (List.mem_cons_of_mem _ hd))
    · refine ih _ ?_ ?_ (List.pairwise_cons.mp hpw).2
        (fun d hd => hund d (List.mem_cons_of_mem _ hd))
    
      · rw [List.nodup_append]
        refine ⟨hnd, List.Nodup.sublist (List.take_sublist _ _)
          (hund c (List.mem_cons_self c cs)), ?_⟩
        intro b hb hb2
        exact hdis b hb c (List.mem_cons_self c cs) (List.take_subset _ _ hb2)
      · intro b hb d hd
        rcases List.mem_append.mp hb with hb' | hb'
        · exact hdis b hb' d (List.mem_cons_of_mem _ hd)
        · exact (List.pairwise_cons.mp hpw).1 d hd b (List.take_subset _ _ hb')

theorem collectSeq_nodup {f : Nat → Bool} {n : Nat} :
    ∀ (cs : List Candidate) (cur : Option (Int × Nat)) (acc : List Nat), acc.Nodup →
      (∀ b ∈ acc, ∀ c ∈ cs, b ∉ c.unrequested) →
      List.Pairwise (fun c d : Candidate => ∀ b ∈ c.unrequested, b ∉ d.unrequested) cs →
      (∀ c ∈ cs, c.unrequested.Nodup) →
      (collectSeq f n cs cur acc).Nodup := by
  intro cs
  induction cs with
  | nil => intro cur acc h _ _ _; simpa [collectSeq] using h
  | cons c cs ih =>
    intro cur acc hnd hdis hpw hund
    simp only [collectSeq]
    split_ifs with h1 h2 h3
    · exact hnd
    · exact hnd
    · exact ih _ acc hnd (fun b hb d hd => hdis b hb d (List.mem_cons_of_mem _ hd))
        (List.pairwise_cons.mp hpw).2 (fun d hd => hund d (List.mem_cons_of_mem _ hd))
    · refine ih _ _ ?_ ?_ (List.pairwise_cons.mp hpw).2
        (fun d hd => hund d (List.mem_cons_of_mem _ hd))
      · rw [List.nodup_append]
        refine ⟨hnd, List.Nodup.sublist (List.take_sublist _ _)
          (hund c (List.mem_cons_self c cs)), ?_⟩
        intro b hb hb2
        exact hdis b hb c (List.mem_cons_self c cs) (List.take_subset _ _ hb2)
      · intro b hb d hd
        rcases List.mem_append.mp hb with hb' | hb'
        · exact hdis b hb' d (List.mem_cons_of_mem _ hd)
        · exact (List.pairwise_cons.mp hpw).1 d hd b (List.take_subset _ _ hb')

-- ### Behaviour of `next` at the interface level

theorem next_mem (cands : List Candidate) (seq : Bool) (n : Nat) (f : Nat → Bool) :
    ∀ b, coveredBy (Wishlist.next cands seq n f).1 b →
      ∃ c ∈ cands, f c.piece = true ∧ b ∈ c.unrequested := by
  intro b hb
  unfold Wishlist.next at hb
  split_ifs at hb with hg hseq
  · obtain ⟨s, hs, _⟩ := hb
    simp at hs
  · have h1 : b ∈ List.insertionSort (· ≤ ·) (collectSeq f n cands none []) :=
      make_spans_covered hb
    have h2 : b ∈ collectSeq f n cands none [] :=
      (List.perm_insertionSort _ _).subset h1
    obtain ⟨m, hm⟩ := collectSeq_mem_none cands none
    obtain ⟨c, hc, _, hfc, hbc⟩ := hm b h2
    exact ⟨c, hc, hfc, hbc⟩
  · have h1 : b ∈ List.insertionSort (· ≤ ·) (collectPrio f n cands []) :=
      make_spans_covered hb
    have h2 : b ∈ collectPrio f n cands [] :=
      (List.perm_insertionSort _ _).subset h1
    rcases collectPrio_mem cands [] b h2 with h | h
    · simp at h
    · exact h

theorem next_all_requested (cands : List Candidate) (seq : Bool) (n : Nat) (f : Nat → Bool)
    (h : ∀ c ∈ cands, c.unrequested = []) : (Wishlist.next cands seq n f).1 = [] := by
  unfold Wishlist.next
  split_ifs with hg hseq
  · rfl
  · show make_spans (List.insertionSort (· ≤ ·) (collectSeq f n cands none [])) = []
    rw [collectSeq_all_requested cands none [] h]
    rfl
  · show make_spans (List.insertionSort (· ≤ ·) (collectPrio f n cands [])) = []
    rw [collectPrio_all_requested cands [] h]
    rfl

theorem sorted_blocks_wf {blocks : List Nat} {n : Nat} (hnd : blocks.Nodup)
    (hlen : blocks.length ≤ n) :
    SpansWellFormed (make_spans (List.insertionSort (· ≤ ·) blocks)) ∧
      coveredCount (make_spans (List.insertionSort (· ≤ ·) blocks)) ≤ n := by
  have hperm := List.perm_insertionSort (fun a b : Nat => a ≤ b) blocks
  have hsorted : List.Pairwise (· ≤ ·) (List.insertionSort (· ≤ ·) blocks) :=
    List.sorted_insertionSort _ _
  have hnd' : (List.insertionSort (· ≤ ·) blocks).Nodup := hperm.nodup_iff.mpr hnd
  have hne : List.Pairwise (· ≠ ·) (List.insertionSort (· ≤ ·) blocks) := hnd'
  have hlt : List.Pairwise (· < ·) (List.insertionSort (· ≤ ·) blocks) := by
    refine (hsorted.and hne).imp ?_
    rintro a b ⟨hle, hneq⟩
    exact lt_of_le_of_ne hle hneq
  have hchain : List.Chain' (· < ·) (List.insertionSort (· ≤ ·) blocks) :=
    List.chain'_iff_pairwise.mpr hlt
  refine ⟨make_spans_wf hchain, ?_⟩
  rw [make_spans_count hchain, hperm.length_eq]
  exact hlen

theorem next_wellformed (cands : List Candidate) (seq : Bool) (n : Nat) (f : Nat → Bool)
    (hund : ∀ c ∈ cands, c.unrequested.Nodup)
    (hdis : List.Pairwise (fun c d : Candidate => ∀ b ∈ c.unrequested, b ∉ d.unrequested) cands) :
    SpansWellFormed (Wishlist.next cands seq n f).1 ∧
      coveredCount (Wishlist.next cands seq n f).1 ≤ n ∧
      (n = 0 → (Wishlist.next cands seq n f).1 = []) ∧
      (cands = [] → (Wishlist.next cands seq n f).1 = []) := by
  have hwfempty : SpansWellFormed ([] : List BlockSpan) := ⟨by simp, by simp⟩
  unfold Wishlist.next
  split_ifs with hg hseq
  · exact ⟨hwfempty, by simp [coveredCount], fun _ => rfl, fun _ => rfl⟩
  · have hnodup : (collectSeq f n cands none []).Nodup :=
      collectSeq_nodup cands none [] (by simp) (by simp) hdis hund
    have hlen : (collectSeq f n cands none []).length ≤ n :=
      collectSeq_length cands none [] (by simp)
    have hw := sorted_blocks_wf hnodup hlen
    exact ⟨hw.1, hw.2, fun h0 => absurd (Or.inl h0) hg,
      fun h0 => absurd (Or.inr (by rw [h0]; rfl)) hg⟩
  · have hnodup : (collectPrio f n cands []).Nodup :=
      collectPrio_nodup cands [] (by simp) (by simp) hdis hund
    have hlen : (collectPrio f n cands []).length ≤ n :=
      collectPrio_length cands [] (by simp)
    have hw := sorted_blocks_wf hnodup hlen
    exact ⟨hw.1, hw.2, fun h0 => absurd (Or.inl h0) hg,
      fun h0 => absurd (Or.inr (by rw [h0]; rfl)) hg⟩

theorem next_seq_single_source (cands : List Candidate) (n : Nat) (f : Nat → Bool) :
    ∃ pf : Int × Nat, ∀ b, coveredBy (Wishlist.next cands true n f).1 b →
      ∃ c ∈ cands, (c.priority, c.file_index) = pf ∧ f c.piece = true ∧
        b ∈ c.unrequested := by
  by_cases hg : n = 0 ∨ cands.isEmpty
  · refine ⟨(0, 0), fun b hb => ?_⟩
    unfold Wishlist.next at hb
    rw [if_pos hg] at hb
    obtain ⟨s, hs, _⟩ := hb
    simp at hs
  · have key : ∀ b, coveredBy (Wishlist.next cands true n f).1 b →
        b ∈ collectSeq f n cands none [] := by
      intro b hb
      unfold Wishlist.next at hb
      rw [if_neg hg] at hb
      have h1 : b ∈ List.insertionSort (· ≤ ·) (collectSeq f n cands none []) :=
        make_spans_covered hb
      exact (List.perm_insertionSort _ _).subset h1
    obtain ⟨m, hm⟩ := collectSeq_mem_none cands none
    exact ⟨m, fun b hb => hm b (key b hb)⟩

/-- Directory state in which the higher-priority file's only piece has no
unrequested block left while the next file still has blocks 3 and 4:
sequential mode must skip the exhausted file rather than return nothing. -/
def stSkip : List Candidate :=
  [{ piece := 0, file_index := 0, block_span := ⟨0, 3⟩, raw_block_span := ⟨0, 3⟩,
     unrequested := [], priority := 1 },
   { piece := 1, file_index := 1, block_span := ⟨3, 5⟩, raw_block_span := ⟨3, 5⟩,
     unrequested := [3, 4], priority := 0 }]

-- ### Claim C1 — endgame fallback

/-- C1 counterexample: with the two-file example torrent all 5 blocks are
marked requested via a `sent-request` event and none are owned; the claim
says `next(1)` with an accept-all filter then runs an endgame pass and
returns exactly one block, but `Wishlist::Impl::next` has no second pass
and returns the empty list. -/
theorem C1_counterexample :
    (run (candidate_list_upkeep viewTwoFile) [.sent_request ⟨0, 5⟩]).map
      (fun st => (Wishlist.next st false 1 (fun _ => true)).1) = some [] := by
  simp [run, step, requested_block_span, requested_block_span_from, updateFirstContaining,
    candidate_list_upkeep, sort_candidates, trimOverlaps, trimFrom, trimCand, Candidate.make,
    viewTwoFile, eraseSpanBlocks, Candidate.block_belongs, List.insertionSort, Wishlist.next,
    collectPrio, make_spans, spanify]

/-- C1 (amended): there is no endgame fallback.  In every state in which
every tracked candidate has all of its blocks outstanding (an empty
`unrequested` set), `next(n, f)` returns the empty list for every mode,
every `n` and every filter — the walk is not repeated against the owned
state. -/
theorem C1_no_endgame (cands : List Candidate) (seq : Bool) (n : Nat) (f : Nat → Bool)
    (h : ∀ c ∈ cands, c.unrequested = []) :
    (Wishlist.next cands seq n f).1 = [] :=
  next_all_requested cands seq n f h

/-- Witness for C1: a concrete one-candidate state with everything
requested on which `next(1)` returns nothing. -/
theorem C1_no_endgame_witness :
    (Wishlist.next [{ piece := 0, file_index := 0, block_span := ⟨0, 3⟩,
                      raw_block_span := ⟨0, 3⟩, unrequested := [], priority := 1 }] false 1
      (fun _ => true)).1 = [] :=
  C1_no_endgame _ false 1 _ (by decide)

-- ### Claim C2 — pass-1 block eligibility

/-- Client block ownership after the `got-block 0` event of the C2 trace:
the client owns exactly block 0. -/
def ownsBlockZero : Nat → Bool := fun b => b == 0

/-- C2 counterexample: request block 0, get choked (the peer's outstanding
request on block 0 is returned to the pool), re-request it, then receive
the block from the first peer and a reject from the second.  `got_reject`
re-inserts block 0 into `unrequested` without consulting ownership, so the
next `next(1, accept-all)` call returns span `[0,1)` covering block 0 even
though the client now owns it — contradicting the claim that every
returned block is unowned. -/
theorem C2_counterexample :
    (run (candidate_list_upkeep viewOneBlock)
        [.sent_request ⟨0, 1⟩, .got_choke (fun b => b == 0), .sent_request ⟨0, 1⟩,
         .got_block 0, .got_reject 0]).map
      (fun st => (Wishlist.next st false 1 (fun _ => true)).1) = some [⟨0, 1⟩] ∧
    coveredBy [(⟨0, 1⟩ : BlockSpan)] 0 ∧ ownsBlockZero 0 = true := by
  refine ⟨?_, by decide, by decide⟩
  simp [run, step, requested_block_span, requested_block_span_from, updateFirstContaining,
    candidate_list_upkeep, sort_candidates, trimOverlaps, trimFrom, trimCand, Candidate.make,
    viewOneBlock, eraseSpanBlocks, Candidate.block_belongs, List.insertionSort, Wishlist.next,
    collectPrio, make_spans, spanify, reset_blocks_bitfield, insertAsc, client_got_block,
    reset_block]

/-- C2 (amended): every block covered by the spans `next(n, f)` returns
lies in the `unrequested` set of some candidate currently tracked by the
directory whose piece the filter accepts.  (Such blocks need not be
unowned: reject/cancel/choke re-insertion does not re-check ownership.) -/
theorem C2_unrequested_source (cands : List Candidate) (seq : Bool) (n : Nat)
    (f : Nat → Bool) (b : Nat) (hb : coveredBy (Wishlist.next cands seq n f).1 b) :
    ∃ c ∈ cands, f c.piece = true ∧ b ∈ c.unrequested :=
  next_mem cands seq n f b hb

/-- Witness for C2 (amended): block 0 of the two-file example's `next(10)`
result is an unrequested block of a tracked candidate. -/
theorem C2_unrequested_source_witness :
    ∃ c ∈ candidate_list_upkeep viewTwoFile,
      ((fun _ => true : Nat → Bool) c.piece = true) ∧ 0 ∈ c.unrequested :=
  C2_unrequested_source (candidate_list_upkeep viewTwoFile) false 10 (fun _ => true) 0
    (by decide)

-- ### Claim C3 — span disjointness invariant

/-- C3: right after construction on the straddling-piece torrent
(36 KiB pieces over 16 KiB blocks, middle file High priority), the
candidates of pieces 1 and 2 are not consecutive in the sorted directory,
the overlap-trimming loop misses their shared block 4, and both candidates
keep covering it — the pairwise-disjointness invariant is violated in a
reachable state. -/
theorem C3_overlap_after_construction :
    ∃ c1 ∈ candidate_list_upkeep viewThreePiece,
      ∃ c2 ∈ candidate_list_upkeep viewThreePiece,
        c1.piece ≠ c2.piece ∧ c1.block_span.covers 4 ∧ c2.block_span.covers 4 ∧
        4 ∈ c1.unrequested ∧ 4 ∈ c2.unrequested := by decide

-- ### Claim C4 — output well-formedness

/-- C4: on the straddling-piece torrent the shared block 4 sits in two
candidates' `unrequested` sets, the collected block list holds it twice,
and `make_spans` then emits the overlapping spans `[2,5)` and `[4,7)` —
the claimed pairwise non-overlap of `next`'s output fails. -/
theorem C4_overlapping_spans :
    (Wishlist.next (candidate_list_upkeep viewThreePiece) false 10 (fun _ => true)).1 =
      [⟨2, 5⟩, ⟨4, 7⟩] ∧
    ¬SpansWellFormed [(⟨2, 5⟩ : BlockSpan), ⟨4, 7⟩] := by
  refine ⟨by decide, ?_⟩
  rintro ⟨-, hchain⟩
  have h54 : (5 : Nat) < 4 := (List.chain'_cons.mp hchain).1
  omega

-- ### Claim C5 — sequential non-straddling

/-- C5: in sequential mode all blocks of one `next` call are drawn from
candidates sharing a single `(priority, file_index)` pair, so once a block
of file F is produced no block of a different file can appear; and a file
with no remaining eligible blocks is skipped rather than ending the scan,
as the `stSkip` scenario shows (the High-priority file is exhausted and
`next(2)` still returns the next file's span `[3,5)`). -/
theorem C5_sequential_non_straddling :
    (∀ (cands : List Candidate) (n : Nat) (f : Nat → Bool) (b b' : Nat),
      coveredBy (Wishlist.next cands true n f).1 b →
      coveredBy (Wishlist.next cands true n f).1 b' →
      ∃ c ∈ cands, ∃ c' ∈ cands,
        c.priority = c'.priority ∧ c.file_index = c'.file_index ∧
        f c.piece = true ∧ f c'.piece = true ∧ b ∈ c.unrequested ∧ b' ∈ c'.unrequested) ∧
    (Wishlist.next stSkip true 2 (fun _ => true)).1 = [⟨3, 5⟩] := by
  constructor
  · intro cands n f b b' hb hb'
    obtain ⟨pf, hpf⟩ := next_seq_single_source cands n f
    obtain ⟨c, hc, hcm, hcf, hcb⟩ := hpf b hb
    obtain ⟨c', hc', hcm', hcf', hcb'⟩ := hpf b' hb'
    have hpair : (c.priority, c.file_index) = (c'.priority, c'.file_index) :=
      hcm.trans hcm'.symm
    have hp := congrArg Prod.fst hpair
    have hf := congrArg Prod.snd hpair
    exact ⟨c, hc, c', hc', hp, hf, hcf, hcf', hcb, hcb'⟩
  · decide

/-- Witness for C5: blocks 3 and 4 of the skip scenario's result both come
from the same (priority, file) source. -/
theorem C5_witness :
    ∃ c ∈ stSkip, ∃ c' ∈ stSkip,
      c.priority = c'.priority ∧ c.file_index = c'.file_index ∧
      ((fun _ => true : Nat → Bool) c.piece = true) ∧
      ((fun _ => true : Nat → Bool) c'.piece = true) ∧
      3 ∈ c.unrequested ∧ 4 ∈ c'.unrequested :=
  C5_sequential_non_straddling.1 stSkip 2 (fun _ => true) 3 4 (by decide) (by decide)

-- ### Claim C6 — idempotence of `next`

/-- C6: `next` mutates no scheduler state — the embedding returns the
candidate list unchanged — so two consecutive calls with no event in
between give identical span lists; in particular, in the two-file
sequential example `next(2)` returns `[0,2)` and a second `next(2)`
returns `[0,2)` again. -/
theorem C6_idempotent :
    (∀ (cands : List Candidate) (seq : Bool) (n : Nat) (f : Nat → Bool),
      (Wishlist.next cands seq n f).2 = cands ∧
      (Wishlist.next ((Wishlist.next cands seq n f).2) seq n f).1 =
        (Wishlist.next cands seq n f).1) ∧
    (Wishlist.next (candidate_list_upkeep viewTwoFile) true 2 (fun _ => true)).1 = [⟨0, 2⟩] ∧
    (Wishlist.next ((Wishlist.next (candidate_list_upkeep viewTwoFile) true 2
        (fun _ => true)).2) true 2 (fun _ => true)).1 = [⟨0, 2⟩] := by
  refine ⟨?_, by decide, by decide⟩
  intro cands seq n f
  have h2 : (Wishlist.next cands seq n f).2 = cands := by
    unfold Wishlist.next
    split_ifs <;> rfl
  exact ⟨h2, by rw [h2]⟩

-- ### Claim C7 — sort-order invariant

/-- C7: in every state reachable from construction by any sequence of
event-handler invocations, the stored directory order is strictly sorted
by `(priority descending, file_ordinal ascending, piece ascending)` and
equals the order obtained by sorting the current candidates by that key. -/
theorem C7_sort_order (v : MediatorView) (evs : List WishEvent) (st : List Candidate)
    (h : run (candidate_list_upkeep v) evs = some st) :
    List.Pairwise candLt st ∧ st = sort_candidates st := by
  have hk : KeysInv st := run_preserve
    (fun cands e (_ : True) hkk cands' hs => keysInv_step cands e hkk cands' hs)
    evs (candidate_list_upkeep v) st (fun _ _ => trivial) (upkeep_keys v) h
  refine ⟨hk.1, ?_⟩
  exact perm_pairwise_eq (fun a b hab hba => keyLt_asymm hab hba) st (sort_candidates st)
    (List.perm_insertionSort candLe st).symm hk.1 (sort_candidates_strict hk.2)

/-- Witness for C7: the freshly built two-file directory is sorted. -/
theorem C7_witness :
    List.Pairwise candLt (candidate_list_upkeep viewTwoFile) ∧
      candidate_list_upkeep viewTwoFile = sort_candidates (candidate_list_upkeep viewTwoFile) :=
  C7_sort_order viewTwoFile [] (candidate_list_upkeep viewTwoFile) rfl

-- ### Claim C8 — bad-piece reset

/-- C8: a bad piece fires only after the piece completed and failed its
hash (torrent.cc emits `got_bad_piece` *before* `set_has_piece(piece,
false)`), so at handler time `client_has_block` still answers `true` for
every block of the piece.  The handler restores the raw span of piece 0
(from the trimmed `[5,3)` back to `[0,3)`) and keeps it in the directory,
but its `!client_has_block` filter then re-inserts *no* block: the
`unrequested` set stays empty instead of becoming the whole span. -/
theorem C8_reset_skips_owned_blocks :
    (run (candidate_list_upkeep viewThreePiece) [.got_bad_piece 0 (fun _ => true)]).map
        (fun st => st.map (fun c => (c.piece, c.block_span, c.unrequested))) =
      some [(1, ⟨2, 5⟩, [2, 3, 4]), (0, ⟨0, 3⟩, []), (2, ⟨4, 7⟩, [4, 5, 6])] := by
  decide

-- ### Claim C9 — safety of the sent-request handler

/-- C9: reporting the same span sent twice makes `requested_block_span`
find the candidate again with an already-empty `unrequested` set, and the
source then dereferences `std::prev(std::end(unreq))` and
`std::begin(unreq)` of an empty set — an out-of-bounds read, modelled as
the `none` outcome. -/
theorem C9_oob_on_empty_unrequested :
    run (candidate_list_upkeep viewOneBlock)
      [.sent_request ⟨0, 1⟩, .sent_request ⟨0, 1⟩] = none := by
  simp [run, step, requested_block_span, requested_block_span_from, updateFirstContaining,
    candidate_list_upkeep, sort_candidates, trimOverlaps, trimFrom, trimCand, Candidate.make,
    viewOneBlock, eraseSpanBlocks, Candidate.block_belongs, List.insertionSort]

-- ### Claim C10 — unrequested-containment invariant

/-- C10: in every state reachable from construction by any event sequence,
every candidate's `unrequested` set is contained in its current block
span, and consequently every block covered by a `next` result lies inside
the span of some tracked candidate. -/
theorem C10_unrequested_containment (v : MediatorView) (evs : List WishEvent)
    (st : List Candidate) (h : run (candidate_list_upkeep v) evs = some st) :
    UnreqInSpan st ∧
      ∀ (seq : Bool) (n : Nat) (f : Nat → Bool) (b : Nat),
        coveredBy (Wishlist.next st seq n f).1 b → ∃ c ∈ st, c.block_belongs b := by
  have hu : UnreqInSpan st := run_preserve
    (fun cands e (_ : True) huu cands' hs => unreqInSpan_step cands e huu cands' hs)
    evs (candidate_list_upkeep v) st (fun _ _ => trivial) (upkeep_unreq v) h
  refine ⟨hu, ?_⟩
  intro seq n f b hb
  obtain ⟨c, hc, _, hbc⟩ := next_mem st seq n f b hb
  exact ⟨c, hc, hu c hc b hbc⟩

/-- Witness for C10: the freshly built two-file directory satisfies the
containment, and block 0 of `next(10)`'s result lies in a tracked span. -/
theorem C10_witness :
    UnreqInSpan (candidate_list_upkeep viewTwoFile) ∧
      ∃ c ∈ candidate_list_upkeep viewTwoFile, c.block_belongs 0 := by
  have h := C10_unrequested_containment viewTwoFile [] (candidate_list_upkeep viewTwoFile) rfl
  exact ⟨h.1, h.2 false 10 (fun _ => true) 0 (by decide)⟩
